import Mathlib

/-!
Shallow embedding of `executor/src/witgen/processor.rs`: the row-window
constraint solver (`Processor`) of the powdr witness-generation engine.

Pure data (cells, constraints, affine expressions, the outer query) is modelled
directly; the external collaborators that live outside the analysed file
(identity processor, query processor, row-pair expression evaluation, the
affine solver) are modelled as explicit function parameters, so every theorem
quantifies over their behaviour.  The row-updater and the copy-constraint
index, which are also external, are modelled from the spec where noted.
Logging is modelled as a no-op; Rust panics (assertion failures, `unwrap` on
`None`, out-of-bounds indexing) are modelled as explicit failure outcomes.
-/

namespace PowdrProcessor

/-- Kind of a polynomial column: committed (witness, solved for) or
fixed/intermediate (never solved for). -/
inductive PolynomialType where
  | Committed
  | Constant
  | Intermediate
deriving DecidableEq

/-- Identifier of a column together with its kind (mirrors powdr `PolyID`). -/
structure PolyID where
  id : Nat
  ptype : PolynomialType
deriving DecidableEq

/-- Reference to a column cell, in the current row (`next = false`) or the
next row (`next = true`); mirrors `AlgebraicReference` (names dropped). -/
structure AlgebraicReference where
  poly_id : PolyID
  next : Bool
deriving DecidableEq

/-- Modelled from the spec: opaque bound data of a range constraint
(`RangeConstraint` of `range_constraints.rs` is outside the analysed file);
no claim inspects the bounds, only which constructor a cell carries. -/
structure RangeBounds (T : Type) where
  lo : T
  hi : T
deriving DecidableEq

/-- Modelled from the spec: per-cell value state of `rows.rs` (outside the
analysed file): exactly one of known, range-constrained, unknown. -/
inductive CellValue (T : Type) where
  | Known : T → CellValue T
  | RangeConstraint : RangeBounds T → CellValue T
  | Unknown : CellValue T
deriving DecidableEq

/-- Atomic derived constraint tied to a column reference: an assignment or a
range constraint (mirrors witgen `Constraint`). -/
inductive Constraint (T : Type) where
  | Assignment : T → Constraint T
  | RangeConstraint : RangeBounds T → Constraint T
deriving DecidableEq

/-- Modelled from the spec: an affine expression over unknown column
references (a linear combination plus a constant offset;
`affine_expression.rs` is outside the analysed file).  The coefficient map is
modelled as an association list. -/
structure AffineExpression (T : Type) where
  coefficients : List (AlgebraicReference × T)
  offset : T
deriving DecidableEq

/-- An affine expression is constant when it has no nonzero coefficient. -/
def AffineExpression.is_constant {T : Type} [DecidableEq T] [Zero T]
    (e : AffineExpression T) : Bool :=
  e.coefficients.all (fun kv => kv.2 = 0)

/-- Constant value of an affine expression, if it is constant. -/
def AffineExpression.constant_value {T : Type} [DecidableEq T] [Zero T]
    (e : AffineExpression T) : Option T :=
  if e.is_constant then some e.offset else none

/-- Modelled from the spec: `assign(column, value)` folds a now-known value
into the expression: the column's coefficient is removed and
`coefficient * value` is added to the offset. -/
def AffineExpression.assign {T : Type} [CommRing T] [DecidableEq T]
    (e : AffineExpression T) (key : AlgebraicReference) (value : T) :
    AffineExpression T :=
  { coefficients := e.coefficients.filter (fun kv => !(kv.1 = key : Bool)),
    offset := e.offset +
      ((e.coefficients.filter (fun kv => (kv.1 = key : Bool))).map
        (fun kv => kv.2 * value)).sum }

/-- Subtraction of a constant, modelling `affine_expression - value.into()`. -/
def AffineExpression.subConst {T : Type} [CommRing T]
    (e : AffineExpression T) (value : T) : AffineExpression T :=
  { e with offset := e.offset - value }

/-- Modelled from the spec: result of evaluating/solving one identity
(`EvalValue` of `eval_result.rs`, outside the analysed file): the derived
constraints, a side-effect flag, and whether evaluation was complete. -/
structure EvalValue (T : Type) where
  constraints : List (AlgebraicReference × Constraint T)
  side_effect : Bool
  complete : Bool
deriving DecidableEq

/-- Modelled from the spec: combination of two evaluation results: constraints
are concatenated, side effects are joined, completeness is conjoined. -/
def EvalValue.combine {T : Type} (a b : EvalValue T) : EvalValue T :=
  { constraints := a.constraints ++ b.constraints,
    side_effect := a.side_effect || b.side_effect,
    complete := a.complete && b.complete }

/-- Unknown strategy of a row pair: solve for unknowns, or treat them as zero
(check-only). -/
inductive UnknownStrategy where
  | Unknown
  | Zero
deriving DecidableEq

/-- A row: the cell value of every column at one row index. -/
abbrev Row (T : Type) := PolyID → CellValue T

/-- Default row; every read through it is guarded by an explicit bounds check
mirroring the panic of the original indexing. -/
def defaultRow (T : Type) : Row T := fun _ => CellValue.Unknown

/-- A pair of adjacent rows under an unknown strategy (mirrors `RowPair`;
`from_single_row` is the case `next = none`). -/
structure RowPair (T : Type) where
  current : Row T
  next : Option (Row T)
  global_index : Nat
  strategy : UnknownStrategy

/-- The outer query: the caller-side expressions pre-evaluated into affine
form, plus the right side of the connecting identity (expressions of the
abstract expression type `E`, plus the optional selector). -/
structure OuterQuery (T E : Type) where
  left : List (AffineExpression T)
  right_expressions : List E
  right_selector : Option E

/-- OuterQuery::is_complete: every caller-side left expression is constant. -/
def OuterQuery.is_complete {T E : Type} [DecidableEq T] [Zero T]
    (oq : OuterQuery T E) : Bool :=
  oq.left.all (fun l => l.is_constant)

/-- Modelled from the spec: the external collaborator functions (row-pair
expression evaluation, affine solving with range constraints, expression
analysis) together with the read-only fixed column data.  `evaluate` errors
with an incompleteness cause (abstracted to `Unit`) when required values are
unknown; `solveRC` is total, per the collaborator contract of the spec. -/
structure Ctx (T E : Type) where
  evaluate : RowPair T → E → Except Unit (AffineExpression T)
  solveRC : AffineExpression T → RowPair T → EvalValue T
  tryToSimplePoly : E → Option PolyID
  colExpr : PolyID → E
  hasQuery : PolyID → Bool
  allWitnessCols : List PolyID

/-- Result of processing one identity. -/
structure IdentityResult where
  progress : Bool
  is_complete : Bool
deriving DecidableEq

/-- Outcome of an operation that can return a value, surface an error, or hit
a fatal condition (Rust assertion failure / `unwrap` panic / out-of-bounds
indexing). -/
inductive PResult (ε α : Type) where
  | ok : α → PResult ε α
  | err : ε → PResult ε α
  | fatal : PResult ε α

/-- The Processor state: row window, ownership data, outer query, forced
inputs and their force records, and the copy-constraint index.  The mutable
shared state and the fixed data of the Rust struct are externalized into
`Ctx` and the per-operation collaborator parameters.  The copy-constraint
index is modelled (from the spec) as a map from a cell to the rest of its
equivalence class. -/
structure Processor (T E : Type) where
  row_offset : Nat
  data : List (Row T)
  witness_cols : PolyID → Bool
  is_relevant_witness : PolyID → Bool
  prover_query_witnesses : List PolyID
  outer_query : Option (OuterQuery T E)
  inputs : List (PolyID × T)
  previously_set_inputs : PolyID → Option Nat
  copy_constraints : List ((PolyID × Nat) × List (PolyID × Nat))

/-- Cell value of column `c` at local row `r`. -/
def Processor.cellAt {T E : Type} (p : Processor T E) (r : Nat) (c : PolyID) :
    CellValue T :=
  (p.data.getD r (defaultRow T)) c

/-- Processor::new: precomputes the ownership flag map and the owned columns
with an attached prover query; no outer query, no inputs, no force records,
and (TODO(#1333) in the source) an empty copy-constraint index. -/
def Processor.new {T E : Type} (ctx : Ctx T E) (row_offset : Nat)
    (data : List (Row T)) (witness_cols : PolyID → Bool) : Processor T E :=
  { row_offset := row_offset,
    data := data,
    witness_cols := witness_cols,
    is_relevant_witness := witness_cols,
    prover_query_witnesses :=
      ctx.allWitnessCols.filter (fun pid => witness_cols pid && ctx.hasQuery pid),
    outer_query := none,
    inputs := [],
    previously_set_inputs := fun _ => none,
    copy_constraints := [] }

/-- Extraction of the forced inputs in `with_outer_query`: for every pairing
of an evaluated left expression with a simple-column right expression, if the
left is already a concrete constant, force the right column to it. -/
def extractInputs {T E : Type} [DecidableEq T] [Zero T] (ctx : Ctx T E)
    (oq : OuterQuery T E) : List (PolyID × T) :=
  (oq.left.zip oq.right_expressions).filterMap (fun lr =>
    match ctx.tryToSimplePoly lr.2 with
    | some pid =>
      match lr.1.constant_value with
      | some v => some (pid, v)
      | none => none
    | none => none)

/-- Processor::with_outer_query: installs the outer query and replaces the
forced-input list with the inputs extracted from it. -/
def Processor.with_outer_query {T E : Type} [DecidableEq T] [Zero T]
    (p : Processor T E) (ctx : Ctx T E) (oq : OuterQuery T E) : Processor T E :=
  { p with outer_query := some oq, inputs := extractInputs ctx oq }

/-- Processor::finished_outer_query: no outer query, or it is complete. -/
def Processor.finished_outer_query {T E : Type} [DecidableEq T] [Zero T]
    (p : Processor T E) : Bool :=
  (p.outer_query.map (fun oq => oq.is_complete)).getD true

/-- Processor::has_outer_query. -/
def Processor.has_outer_query {T E : Type} (p : Processor T E) : Bool :=
  p.outer_query.isSome

/-- Processor::len. -/
def Processor.len {T E : Type} (p : Processor T E) : Nat :=
  p.data.length

/-- Construction of the row pair `(data[i], data[i+1])` at local row `i`;
`none` models the index panic when the window is too short. -/
def mkRowPair {T E : Type} (p : Processor T E) (row_index : Nat)
    (strategy : UnknownStrategy) : Option (RowPair T) :=
  if row_index + 1 < p.data.length then
    some { current := p.data.getD row_index (defaultRow T),
           next := some (p.data.getD (row_index + 1) (defaultRow T)),
           global_index := p.row_offset + row_index,
           strategy := strategy }
  else
    none

/-- Modelled from the spec: look up the equivalence class of a cell in the
copy-constraint index; the first element is the queried cell itself. -/
def ccClass {T E : Type} (p : Processor T E) (cell : PolyID × Nat) :
    List (PolyID × Nat) :=
  cell :: ((p.copy_constraints.find? (fun e => e.1 = cell)).map (fun e => e.2)).getD []

/-- Local row index a reference writes to: the current row, or the next row
for a reference with the next flag. -/
def targetIndex (row_index : Nat) (poly : AlgebraicReference) : Nat :=
  row_index + (if poly.next then 1 else 0)

/-- Modelled from the spec: the cell update of the row updater (`RowUpdater`
of `rows.rs`, outside the analysed file): an assignment makes the cell known;
a range constraint is stored unless the cell is already known.  Bound
combination of range constraints is abstracted, since no claim inspects
bounds. -/
def updatedRow {T : Type} (row : Row T) (poly : AlgebraicReference)
    (c : Constraint T) : Row T :=
  match c with
  | Constraint.Assignment v =>
    Function.update row poly.poly_id (CellValue.Known v)
  | Constraint.RangeConstraint rc =>
    match row poly.poly_id with
    | CellValue.Known _ => row
    | _ => Function.update row poly.poly_id (CellValue.RangeConstraint rc)

/-- Row window after applying one constraint through the row updater. -/
def applyRowUpdateData {T E : Type} (p : Processor T E) (row_index : Nat)
    (poly : AlgebraicReference) (c : Constraint T) : List (Row T) :=
  p.data.set (targetIndex row_index poly)
    (updatedRow (p.data.getD (targetIndex row_index poly) (defaultRow T)) poly c)

/-- Modelled from the spec: the row updater applies one constraint to the
cell addressed by the reference, in the current or next row. -/
def applyRowUpdate {T E : Type} (p : Processor T E) (row_index : Nat)
    (poly : AlgebraicReference) (c : Constraint T) : Processor T E :=
  { p with data := applyRowUpdateData p row_index poly c }

/-- The body of `apply_updates` as a loop over the constraint list,
parameterized by the copy-constraint propagator `prop`.  An owned constraint
is written through the row updater (the mutable-row-pair construction panics
unless `row_index + 1` is in bounds, modelled by the guard) and then
propagated; a caller-owned assignment is folded into the left expressions of
the outer query (`unwrap` panics when no outer query is set); a caller-owned
range constraint is dropped. -/
def apply_listP {T E : Type} [CommRing T] [DecidableEq T]
    (prop : Processor T E → Nat → AlgebraicReference → Constraint T →
      Option (Processor T E)) :
    Processor T E → Nat → List (AlgebraicReference × Constraint T) → Bool →
    Option (Processor T E × Bool)
  | p, _, [], progress => some (p, progress)
  | p, row_index, (poly, c) :: rest, progress =>
    if p.witness_cols poly.poly_id then
      if row_index + 1 < p.data.length then
        match prop (applyRowUpdate p row_index poly c) row_index poly c with
        | none => none
        | some p2 => apply_listP prop p2 row_index rest true
      else none
    else
      match c with
      | Constraint.Assignment v =>
        match p.outer_query with
        | none => none
        | some oq =>
          let oq2 := { oq with left := oq.left.map (fun l => l.assign poly v) }
          apply_listP prop { p with outer_query := some oq2 } row_index rest true
      | Constraint.RangeConstraint _ => apply_listP prop p row_index rest progress

/-- Processor::apply_updates (parameterized by the propagator): empty
constraint lists report no progress without touching anything. -/
def apply_updatesP {T E : Type} [CommRing T] [DecidableEq T]
    (prop : Processor T E → Nat → AlgebraicReference → Constraint T →
      Option (Processor T E))
    (p : Processor T E) (row_index : Nat) (updates : EvalValue T) :
    Option (Processor T E × Bool) :=
  if updates.constraints.isEmpty then some (p, false)
  else apply_listP prop p row_index updates.constraints false

/-- Processor::set_value (parameterized by the propagator): evaluates the
expression on the row pair (an incomplete evaluation is surfaced as an error),
solves the shifted expression and applies the resulting updates. -/
def set_valueP {T E : Type} [CommRing T] [DecidableEq T]
    (prop : Processor T E → Nat → AlgebraicReference → Constraint T →
      Option (Processor T E))
    (ctx : Ctx T E) (p : Processor T E) (row_index : Nat) (expression : E)
    (value : T) : PResult Unit (Processor T E × Bool) :=
  match mkRowPair p row_index UnknownStrategy.Unknown with
  | none => PResult.fatal
  | some rp =>
    match ctx.evaluate rp expression with
    | Except.error e => PResult.err e
    | Except.ok affine =>
      match apply_updatesP prop p row_index (ctx.solveRC (affine.subConst value) rp) with
      | none => PResult.fatal
      | some r => PResult.ok r

/-- The loop of `propagate_along_copy_constraints` over the other members of
the equivalence class: a non-witness target is unimplemented (fatal); the
result of the inner `set_value` is unwrapped (an incomplete evaluation is a
panic here). -/
def propOthers {T E : Type} [CommRing T] [DecidableEq T]
    (sv : Processor T E → Nat → E → T → PResult Unit (Processor T E × Bool))
    (ctx : Ctx T E) (value : T) :
    Processor T E → List (PolyID × Nat) → Option (Processor T E)
  | p, [] => some p
  | p, (other_poly, other_row) :: rest =>
    if other_poly.ptype = PolynomialType.Committed then
      match sv p (other_row - p.row_offset) (ctx.colExpr other_poly) value with
      | PResult.ok (p2, _) => propOthers sv ctx value p2 rest
      | _ => none
    else none

/-- One level of `propagate_along_copy_constraints`: returns immediately when
no copy constraints exist; only assignments propagate. -/
def propagateStep {T E : Type} [CommRing T] [DecidableEq T]
    (sv : Processor T E → Nat → E → T → PResult Unit (Processor T E × Bool))
    (ctx : Ctx T E) (p : Processor T E) (row_index : Nat)
    (poly : AlgebraicReference) (c : Constraint T) : Option (Processor T E) :=
  if p.copy_constraints.isEmpty then some p
  else
    match c with
    | Constraint.Assignment v =>
      let row := p.row_offset + row_index + (if poly.next then 1 else 0)
      propOthers sv ctx v p ((ccClass p (poly.poly_id, row)).drop 1)
    | Constraint.RangeConstraint _ => some p

/-- The tied knot of the mutual recursion
`apply_updates -> propagate -> set_value -> apply_updates`, made structural on
an explicit fuel: each nesting level of copy-constraint propagation consumes
one unit.  With no copy constraints (the only reachable configuration, see the
invariant theorems) the fuel is never consumed. -/
def propagateFuel {T E : Type} [CommRing T] [DecidableEq T] (ctx : Ctx T E) :
    Nat → Processor T E → Nat → AlgebraicReference → Constraint T →
      Option (Processor T E)
  | 0 => fun p _ _ _ => if p.copy_constraints.isEmpty then some p else none
  | fuel + 1 => fun p row_index poly c =>
    propagateStep (fun st ri e v => set_valueP (propagateFuel ctx fuel) ctx st ri e v)
      ctx p row_index poly c

/-- Processor::apply_updates with the fueled propagator. -/
def apply_updatesF {T E : Type} [CommRing T] [DecidableEq T] (ctx : Ctx T E)
    (fuel : Nat) (p : Processor T E) (row_index : Nat) (updates : EvalValue T) :
    Option (Processor T E × Bool) :=
  apply_updatesP (propagateFuel ctx fuel) p row_index updates

/-- Processor::set_value with the fueled propagator. -/
def set_valueF {T E : Type} [CommRing T] [DecidableEq T] (ctx : Ctx T E)
    (fuel : Nat) (p : Processor T E) (row_index : Nat) (expression : E)
    (value : T) : PResult Unit (Processor T E × Bool) :=
  set_valueP (propagateFuel ctx fuel) ctx p row_index expression value

/-- Processor::process_identity.  The identity processor collaborator is
passed already applied to the identity (`ip`); its error message formatting,
which only embeds diagnostics, is dropped.  In the check-only strategy
(`Zero`) any derived constraint or side effect trips the defensive assertions
(fatal) and otherwise the call reports no progress and no completion without
applying anything. -/
def process_identity {T E : Type} [CommRing T] [DecidableEq T] (ctx : Ctx T E)
    (fuel : Nat) (p : Processor T E)
    (ip : RowPair T → Except String (EvalValue T)) (row_index : Nat)
    (unknown_strategy : UnknownStrategy) :
    PResult String (Processor T E × IdentityResult) :=
  match mkRowPair p row_index unknown_strategy with
  | none => PResult.fatal
  | some rp =>
    match ip rp with
    | Except.error e => PResult.err e
    | Except.ok updates =>
      match unknown_strategy with
      | UnknownStrategy.Zero =>
        if updates.constraints.isEmpty && !updates.side_effect then
          PResult.ok (p, { progress := false, is_complete := false })
        else PResult.fatal
      | UnknownStrategy.Unknown =>
        match apply_updatesF ctx fuel p row_index updates with
        | none => PResult.fatal
        | some (p2, progress) =>
          PResult.ok (p2,
            { progress := progress || updates.side_effect,
              is_complete := updates.complete })

/-- The selector phase of `process_outer_query`: when the connecting identity
declares a selector, attempt to set it to one at this row; an error of the
attempt (incomplete evaluation) is absorbed as no progress.  The initial
borrow of the right side panics when no outer query is set. -/
def pq_selector {T E : Type} [CommRing T] [DecidableEq T] (ctx : Ctx T E)
    (fuel : Nat) (p : Processor T E) (row_index : Nat) :
    PResult String (Processor T E × Bool) :=
  match p.outer_query with
  | none => PResult.fatal
  | some oq =>
    match oq.right_selector with
    | none => PResult.ok (p, false)
    | some selector =>
      match set_valueF ctx fuel p row_index selector 1 with
      | PResult.ok (p2, b) => PResult.ok (p2, b)
      | PResult.err _ => PResult.ok (p, false)
      | PResult.fatal => PResult.fatal

/-- The link phase of `process_outer_query`: delegates to the identity
processor's link routine (`link`), applies the updates, and filters the
outward assignments: exactly the assignments whose column is not a relevant
witness of this machine; range constraints are never communicated outward.
The error-path logging of still-evaluable pairings is a no-op in the model. -/
def pq_rest {T E : Type} [CommRing T] [DecidableEq T] (ctx : Ctx T E)
    (fuel : Nat) (p : Processor T E)
    (link : OuterQuery T E → RowPair T → Except String (EvalValue T))
    (row_index : Nat) (progress : Bool) :
    PResult String (Processor T E × (Bool × List (AlgebraicReference × Constraint T))) :=
  match p.outer_query with
  | none => PResult.fatal
  | some oq =>
    match mkRowPair p row_index UnknownStrategy.Unknown with
    | none => PResult.fatal
    | some rp =>
      match link oq rp with
      | Except.error e => PResult.err e
      | Except.ok updates =>
        match apply_updatesF ctx fuel p row_index updates with
        | none => PResult.fatal
        | some (p2, progress2) =>
          let outer_assignments := updates.constraints.filter (fun pc =>
            match pc.2 with
            | Constraint.Assignment _ => !(p2.is_relevant_witness pc.1.poly_id)
            | Constraint.RangeConstraint _ => false)
          PResult.ok (p2, (progress || progress2, outer_assignments))

/-- Processor::process_outer_query: selector phase, then link phase. -/
def process_outer_query {T E : Type} [CommRing T] [DecidableEq T]
    (ctx : Ctx T E) (fuel : Nat) (p : Processor T E)
    (link : OuterQuery T E → RowPair T → Except String (EvalValue T))
    (row_index : Nat) :
    PResult String (Processor T E × (Bool × List (AlgebraicReference × Constraint T))) :=
  match pq_selector ctx fuel p row_index with
  | PResult.fatal => PResult.fatal
  | PResult.err e => PResult.err e
  | PResult.ok (p1, progress) => pq_rest ctx fuel p1 link row_index progress

/-- The query loop of `process_queries`: combine the answers of the query
processor over the owned columns with attached queries, short-circuiting on a
query error. -/
def combineQueries {T : Type}
    (qp : PolyID → Option (Except String (EvalValue T))) (acc : EvalValue T) :
    List PolyID → Except String (EvalValue T)
  | [] => Except.ok acc
  | pid :: rest =>
    match qp pid with
    | none => combineQueries qp acc rest
    | some (Except.error e) => Except.error e
    | some (Except.ok v) => combineQueries qp (acc.combine v) rest

/-- Processor::process_queries: run the prover queries of the owned columns on
the row pair and apply the combined updates. -/
def process_queries {T E : Type} [CommRing T] [DecidableEq T] (ctx : Ctx T E)
    (fuel : Nat) (p : Processor T E)
    (qp : RowPair T → PolyID → Option (Except String (EvalValue T)))
    (row_index : Nat) : PResult String (Processor T E × Bool) :=
  match mkRowPair p row_index UnknownStrategy.Unknown with
  | none => PResult.fatal
  | some rp =>
    match combineQueries (qp rp)
        { constraints := [], side_effect := false, complete := true }
        p.prover_query_witnesses with
    | Except.error e => PResult.err e
    | Except.ok updates =>
      match apply_updatesF ctx fuel p row_index updates with
      | none => PResult.fatal
      | some r => PResult.ok r

/-- Removal of a key from the force record (`BTreeMap::remove`). -/
def psiErase (f : PolyID → Option Nat) (key : PolyID) : PolyID → Option Nat :=
  fun k => if k = key then none else f k

/-- Insertion into the force record (`BTreeMap::insert`). -/
def psiInsert (f : PolyID → Option Nat) (key : PolyID) (value : Nat) :
    PolyID → Option Nat :=
  fun k => if k = key then some value else f k

/-- One write of the input undo: reset the cell of one column at one row to
unknown. -/
def setCellUnknown {T E : Type} (pid : PolyID) (p : Processor T E) (r : Nat) :
    Processor T E :=
  { p with data :=
      p.data.set r (Function.update (p.data.getD r (defaultRow T)) pid CellValue.Unknown) }

/-- The inner loop of the input undo: reset the cells of one column in the
rows `[start, stop)` to unknown. -/
def resetRun {T E : Type} (pid : PolyID) (start stop : Nat)
    (p : Processor T E) : Processor T E :=
  (List.range' start (stop - start)).foldl (setCellUnknown pid) p

/-- One step of the undo loop: if the column of this fresh constraint was
force-applied before, remove its force record and reset the rows from the
recorded row (inclusive) to the current row (exclusive) to unknown. -/
def resetStep {T E : Type} (row_index : Nat) (st : Processor T E)
    (pc : AlgebraicReference × Constraint T) : Processor T E :=
  match st.previously_set_inputs pc.1.poly_id with
  | some start_row =>
    resetRun pc.1.poly_id start_row row_index
      { st with previously_set_inputs := psiErase st.previously_set_inputs pc.1.poly_id }
  | none => st

/-- The first loop of `set_inputs_if_unset`: the undo step for every column
receiving a fresh forced value. -/
def resetPass {T E : Type} (row_index : Nat)
    (cs : List (AlgebraicReference × Constraint T)) (p : Processor T E) :
    Processor T E :=
  cs.foldl (resetStep row_index) p

/-- One step of the record loop: record the current row as the force row of
one column. -/
def recordStep {T E : Type} (row_index : Nat) (st : Processor T E)
    (pc : AlgebraicReference × Constraint T) : Processor T E :=
  { st with previously_set_inputs := psiInsert st.previously_set_inputs pc.1.poly_id row_index }

/-- The second loop of `set_inputs_if_unset`: record the current row as the
force row of every column receiving a fresh forced value. -/
def recordPass {T E : Type} (row_index : Nat)
    (cs : List (AlgebraicReference × Constraint T)) (p : Processor T E) :
    Processor T E :=
  cs.foldl (recordStep row_index) p

/-- The fresh forced-input constraints at a row: an assignment to the target
value for every registered input column whose cell is not already known.  The
reference used is the canonical current-row reference of the column. -/
def inputConstraints {T E : Type} (p : Processor T E) (row_index : Nat) :
    List (AlgebraicReference × Constraint T) :=
  p.inputs.filterMap (fun pv =>
    match (p.data.getD row_index (defaultRow T)) pv.1 with
    | CellValue.Known _ => none
    | _ => some ({ poly_id := pv.1, next := false }, Constraint.Assignment pv.2))

/-- Processor::set_inputs_if_unset: compute the fresh forced-input updates
(the read of the current row panics when out of bounds), undo stale forced
runs, record the new force rows, and apply the updates. -/
def set_inputs_if_unset {T E : Type} [CommRing T] [DecidableEq T]
    (ctx : Ctx T E) (fuel : Nat) (p : Processor T E) (row_index : Nat) :
    Option (Processor T E × Bool) :=
  if row_index < p.data.length then
    apply_updatesF ctx fuel
      (recordPass row_index (inputConstraints p row_index)
        (resetPass row_index (inputConstraints p row_index) p))
      row_index
      { constraints := inputConstraints p row_index, side_effect := false,
        complete := true }
  else none

/-- Processor::latch_value: evaluate the selector of the connecting identity
on a single-row pair with unsolved unknowns and test whether it is one. -/
def latch_value {T E : Type} [CommRing T] [DecidableEq T] (ctx : Ctx T E)
    (p : Processor T E) (row_index : Nat) : Option (Option Bool) :=
  if row_index < p.data.length then
    let rp : RowPair T :=
      { current := p.data.getD row_index (defaultRow T), next := none,
        global_index := p.row_offset + row_index,
        strategy := UnknownStrategy.Unknown }
    some ((p.outer_query.bind (fun oq => oq.right_selector)).bind (fun latch =>
      (match ctx.evaluate rp latch with
       | Except.ok l => l.constant_value
       | Except.error _ => none).map (fun v => v = 1)))
  else none

/-- Processor::check_row_pair: non-mutating check of a proposed row under the
check-only strategy.  With a next-row reference the pair is built from the
stored previous row and the proposed row (the assertion `row_index > 0` and
the indexing of the previous row are fatal when violated, modelled as `none`);
without one, from the proposed row alone.  Logging is a no-op.  Returns false
exactly when the identity processor reports a violation. -/
def check_row_pair {T E : Type} (p : Processor T E)
    (ip : RowPair T → Except String (EvalValue T)) (row_index : Nat)
    (proposed_row : Row T) (has_next_reference : Bool) : Option Bool :=
  match has_next_reference with
  | true =>
    if row_index = 0 then none
    else if row_index - 1 < p.data.length then
      let rp : RowPair T :=
        { current := p.data.getD (row_index - 1) (defaultRow T),
          next := some proposed_row,
          global_index := p.row_offset + (row_index - 1),
          strategy := UnknownStrategy.Zero }
      some (match ip rp with
            | Except.error _ => false
            | Except.ok _ => true)
    else none
  | false =>
    let rp : RowPair T :=
      { current := proposed_row, next := none,
        global_index := p.row_offset + row_index,
        strategy := UnknownStrategy.Zero }
    some (match ip rp with
          | Except.error _ => false
          | Except.ok _ => true)

/-- Processor::set_row: replace an existing row or append the next row; a gap
trips the defensive assertion (fatal). -/
def set_row {T E : Type} (p : Processor T E) (i : Nat) (row : Row T) :
    Option (Processor T E) :=
  if i < p.data.length then some { p with data := p.data.set i row }
  else if i = p.data.length then some { p with data := p.data ++ [row] }
  else none

/-- Processor::finalize_range: asserts that no copy constraints are
registered; the compaction itself is a memory-layout concern of the row
storage (outside the analysed file) and leaves the modelled values unchanged. -/
def finalize_range {T E : Type} (p : Processor T E) : Option (Processor T E) :=
  if p.copy_constraints.isEmpty then some p else none

/-- Trivial collaborator context over integers used for concrete runs. -/
def ctx0 : Ctx Int Unit :=
  { evaluate := fun _ _ => Except.error (),
    solveRC := fun _ _ => { constraints := [], side_effect := false, complete := true },
    tryToSimplePoly := fun _ => none,
    colExpr := fun _ => (),
    hasQuery := fun _ => false,
    allWitnessCols := [] }

/-- Concrete witness column. -/
def pidX : PolyID := { id := 0, ptype := PolynomialType.Committed }

/-- Concrete caller-side column. -/
def pidY : PolyID := { id := 1, ptype := PolynomialType.Committed }

/-- Current-row reference to `pidX`. -/
def refX : AlgebraicReference := { poly_id := pidX, next := false }

/-- Current-row reference to `pidY`. -/
def refY : AlgebraicReference := { poly_id := pidY, next := false }

/-- Identity processor answer with no constraints. -/
def ip0 : RowPair Int → Except String (EvalValue Int) :=
  fun _ => Except.ok { constraints := [], side_effect := false, complete := false }

/-- Identity processor answer with a constraint (trips the check-only assert). -/
def ipBad : RowPair Int → Except String (EvalValue Int) :=
  fun _ => Except.ok { constraints := [(refY, Constraint.Assignment 3)], side_effect := false, complete := true }

/-- Concrete two-row processor owning `pidX`, no outer query. -/
def procW : Processor Int Unit :=
  { row_offset := 0,
    data := [defaultRow Int, defaultRow Int],
    witness_cols := fun pid => decide (pid = pidX),
    is_relevant_witness := fun pid => decide (pid = pidX),
    prover_query_witnesses := [],
    outer_query := none,
    inputs := [],
    previously_set_inputs := fun _ => none,
    copy_constraints := [] }

/-- The row pair of `procW` at row 0. -/
def rpW : RowPair Int :=
  { current := defaultRow Int, next := some (defaultRow Int),
    global_index := 0, strategy := UnknownStrategy.Zero }

/-- Concrete outer query with one non-constant left expression, no selector. -/
def oqW : OuterQuery Int Unit :=
  { left := [{ coefficients := [(refY, 1)], offset := 0 }],
    right_expressions := [], right_selector := none }

/-- Concrete processor with the outer query `oqW` installed. -/
def procOQ : Processor Int Unit :=
  { procW with outer_query := some oqW }

/-- Concrete outer query with a selector. -/
def oqSel : OuterQuery Int Unit :=
  { left := [], right_expressions := [], right_selector := some () }

/-- Concrete processor with a selector-carrying outer query. -/
def procSel : Processor Int Unit :=
  { procW with outer_query := some oqSel }

/-- A row with `pidX` known to be 7. -/
def knownRow7 : Row Int :=
  Function.update (defaultRow Int) pidX (CellValue.Known 7)

/-- The forced-input scenario of the spec: `pidX` forced to 7, last
force-applied at row 0, rows 0..4 known 7, rows 5 and 6 unknown. -/
def procC3 : Processor Int Unit :=
  { row_offset := 0,
    data := [knownRow7, knownRow7, knownRow7, knownRow7, knownRow7, defaultRow Int, defaultRow Int],
    witness_cols := fun pid => decide (pid = pidX),
    is_relevant_witness := fun pid => decide (pid = pidX),
    prover_query_witnesses := [],
    outer_query := none,
    inputs := [(pidX, 7)],
    previously_set_inputs := fun k => if k = pidX then some 0 else none,
    copy_constraints := [] }

/-- Processor state after folding one caller-owned assignment into the left
expressions of the outer query. -/
def foldCallerAssignment {T E : Type} [CommRing T] [DecidableEq T]
    (p : Processor T E) (oq : OuterQuery T E) (poly : AlgebraicReference)
    (v : T) : Processor T E :=
  { p with outer_query := some { oq with left := oq.left.map (fun l => l.assign poly v) } }

/-- The row pair `check_row_pair` hands to the identity processor: previous
stored row with the proposed row as next (next-row reference), or the proposed
row alone. -/
def checkRowPairView {T E : Type} (p : Processor T E) (row_index : Nat)
    (proposed_row : Row T) (has_next_reference : Bool) : RowPair T :=
  match has_next_reference with
  | true =>
    { current := p.data.getD (row_index - 1) (defaultRow T),
      next := some proposed_row,
      global_index := p.row_offset + (row_index - 1),
      strategy := UnknownStrategy.Zero }
  | false =>
    { current := proposed_row, next := none,
      global_index := p.row_offset + row_index,
      strategy := UnknownStrategy.Zero }

/-- The row pair of `procW` at row 0 with the solving strategy. -/
def rpU : RowPair Int :=
  { current := defaultRow Int, next := some (defaultRow Int),
    global_index := 0, strategy := UnknownStrategy.Unknown }

/-- Link routine answering with no constraints. -/
def link0 : OuterQuery Int Unit → RowPair Int → Except String (EvalValue Int) :=
  fun _ _ => Except.ok { constraints := [], side_effect := false, complete := true }

/-- A single owned assignment used for the double-application run. -/
def uC6 : EvalValue Int :=
  { constraints := [(refX, Constraint.Assignment 5)], side_effect := false, complete := true }

/-- One observable operation of the Processor, relating the state before to
the state after (collaborators and arguments are existentially free). -/
inductive Step {T E : Type} [CommRing T] [DecidableEq T] (ctx : Ctx T E) :
    Processor T E → Processor T E → Prop where
  | withOQ : ∀ (p : Processor T E) (oq : OuterQuery T E),
      Step ctx p (Processor.with_outer_query p ctx oq)
  | ident : ∀ (p q : Processor T E) (fuel : Nat)
      (ip : RowPair T → Except String (EvalValue T)) (ri : Nat)
      (strat : UnknownStrategy) (r : IdentityResult),
      process_identity ctx fuel p ip ri strat = PResult.ok (q, r) →
      Step ctx p q
  | outer : ∀ (p q : Processor T E) (fuel : Nat)
      (link : OuterQuery T E → RowPair T → Except String (EvalValue T))
      (ri : Nat) (prog : Bool)
      (outs : List (AlgebraicReference × Constraint T)),
      process_outer_query ctx fuel p link ri = PResult.ok (q, (prog, outs)) →
      Step ctx p q
  | queries : ∀ (p q : Processor T E) (fuel : Nat)
      (qp : RowPair T → PolyID → Option (Except String (EvalValue T)))
      (ri : Nat) (b : Bool),
      process_queries ctx fuel p qp ri = PResult.ok (q, b) → Step ctx p q
  | inputs : ∀ (p q : Processor T E) (fuel ri : Nat) (b : Bool),
      set_inputs_if_unset ctx fuel p ri = some (q, b) → Step ctx p q
  | setval : ∀ (p q : Processor T E) (fuel ri : Nat) (e : E) (v : T) (b : Bool),
      set_valueF ctx fuel p ri e v = PResult.ok (q, b) → Step ctx p q
  | setrow : ∀ (p q : Processor T E) (i : Nat) (row : Row T),
      set_row p i row = some q → Step ctx p q
  | fin : ∀ (p q : Processor T E), finalize_range p = some q → Step ctx p q

/-- Reachability by any sequence of operations. -/
def Reaches {T E : Type} [CommRing T] [DecidableEq T] (ctx : Ctx T E) :
    Processor T E → Processor T E → Prop :=
  Relation.ReflTransGen (Step ctx)

/-- The outward filter of `process_outer_query`, phrased over a given
ownership state: keep exactly the assignments on non-owned columns. -/
def outwardKeep {T E : Type} (p : Processor T E)
    (pc : AlgebraicReference × Constraint T) : Bool :=
  match pc.2 with
  | Constraint.Assignment _ => !(p.witness_cols pc.1.poly_id)
  | Constraint.RangeConstraint _ => false

/-- Concrete processor with a single registered forced input `pidX = 7`. -/
def procW2 : Processor Int Unit :=
  { procW with inputs := [(pidX, 7)] }

/-- The state `procW2` reaches after `set_inputs_if_unset` at row 0. -/
def qW2 : Processor Int Unit :=
  { row_offset := 0,
    data := [Function.update (defaultRow Int) pidX (CellValue.Known 7), defaultRow Int],
    witness_cols := fun pid => decide (pid = pidX),
    is_relevant_witness := fun pid => decide (pid = pidX),
    prover_query_witnesses := [],
    outer_query := none,
    inputs := [(pidX, 7)],
    previously_set_inputs := psiInsert (fun _ => none) pidX 0,
    copy_constraints := [] }

theorem getD_set_self {α : Type} (l : List α) (i : Nat) (a d : α)
    (h : i < l.length) : (l.set i a).getD i d = a := by
  simp [List.getD_eq_getElem?_getD, List.getElem?_set, h]

theorem getD_set_other {α : Type} (l : List α) (i j : Nat) (a d : α)
    (h : i ≠ j) : (l.set i a).getD j d = l.getD j d := by
  simp [List.getD_eq_getElem?_getD, List.getElem?_set, h]

/-- Fields of the Processor preserved by the update-application path, plus the
fact that this path never sets a cell to unknown. -/
structure Frame {T E : Type} (p q : Processor T E) : Prop where
  cc : q.copy_constraints = p.copy_constraints
  off : q.row_offset = p.row_offset
  wc : q.witness_cols = p.witness_cols
  irw : q.is_relevant_witness = p.is_relevant_witness
  pqw : q.prover_query_witnesses = p.prover_query_witnesses
  inp : q.inputs = p.inputs
  psi : q.previously_set_inputs = p.previously_set_inputs
  len : q.data.length = p.data.length
  noUnk : ∀ r c, q.cellAt r c = CellValue.Unknown → p.cellAt r c = CellValue.Unknown

theorem Frame.refl {T E : Type} (p : Processor T E) : Frame p p :=
  ⟨rfl, rfl, rfl, rfl, rfl, rfl, rfl, rfl, fun _ _ h => h⟩

theorem Frame.trans {T E : Type} {p q r : Processor T E}
    (h1 : Frame p q) (h2 : Frame q r) : Frame p r :=
  ⟨h2.cc.trans h1.cc, h2.off.trans h1.off, h2.wc.trans h1.wc,
   h2.irw.trans h1.irw, h2.pqw.trans h1.pqw, h2.inp.trans h1.inp,
   h2.psi.trans h1.psi, h2.len.trans h1.len,
   fun a c h => h1.noUnk a c (h2.noUnk a c h)⟩

theorem updatedRow_other_col {T : Type} (row : Row T)
    (poly : AlgebraicReference) (c : Constraint T) (col : PolyID)
    (h : col ≠ poly.poly_id) : updatedRow row poly c col = row col := by
  cases c with
  | Assignment v => exact Function.update_noteq h _ _
  | RangeConstraint rc =>
    cases hc : row poly.poly_id with
    | Known v => simp [updatedRow, hc]
    | RangeConstraint rc2 => simp [updatedRow, hc, Function.update_noteq h]
    | Unknown => simp [updatedRow, hc, Function.update_noteq h]

theorem updatedRow_ne_unknown {T : Type} (row : Row T)
    (poly : AlgebraicReference) (c : Constraint T) :
    updatedRow row poly c poly.poly_id ≠ CellValue.Unknown := by
  cases c with
  | Assignment v => simp [updatedRow, Function.update_same]
  | RangeConstraint rc =>
    cases hc : row poly.poly_id with
    | Known v => simp [updatedRow, hc]
    | RangeConstraint rc2 => simp [updatedRow, hc, Function.update_same]
    | Unknown => simp [updatedRow, hc, Function.update_same]

theorem cellAt_applyRowUpdate_other_row {T E : Type} (p : Processor T E)
    (ri : Nat) (poly : AlgebraicReference) (c : Constraint T) (r : Nat)
    (col : PolyID) (hr : r ≠ targetIndex ri poly) :
    (applyRowUpdate p ri poly c).cellAt r col = p.cellAt r col := by
  unfold Processor.cellAt applyRowUpdate applyRowUpdateData
  rw [getD_set_other _ _ _ _ _ (fun he => hr he.symm)]

theorem cellAt_applyRowUpdate_target {T E : Type} (p : Processor T E)
    (ri : Nat) (poly : AlgebraicReference) (c : Constraint T) (col : PolyID)
    (hb : targetIndex ri poly < p.data.length) :
    (applyRowUpdate p ri poly c).cellAt (targetIndex ri poly) col =
      updatedRow (p.data.getD (targetIndex ri poly) (defaultRow T)) poly c col := by
  unfold Processor.cellAt applyRowUpdate applyRowUpdateData
  rw [getD_set_self _ _ _ _ hb]

theorem applyRowUpdate_oob {T E : Type} (p : Processor T E) (ri : Nat)
    (poly : AlgebraicReference) (c : Constraint T)
    (hb : ¬ targetIndex ri poly < p.data.length) :
    (applyRowUpdate p ri poly c).data = p.data := by
  unfold applyRowUpdate applyRowUpdateData
  exact List.set_eq_of_length_le (Nat.le_of_not_lt hb)

theorem frame_applyRowUpdate {T E : Type} (p : Processor T E) (ri : Nat)
    (poly : AlgebraicReference) (c : Constraint T) :
    Frame p (applyRowUpdate p ri poly c) := by
  refine ⟨rfl, rfl, rfl, rfl, rfl, rfl, rfl, by simp [applyRowUpdate, applyRowUpdateData], ?_⟩
  intro r col h
  by_cases hb : targetIndex ri poly < p.data.length
  · by_cases hr : r = targetIndex ri poly
    · subst hr
      rw [cellAt_applyRowUpdate_target p ri poly c col hb] at h
      by_cases hcol : col = poly.poly_id
      · subst hcol
        exact absurd h (updatedRow_ne_unknown _ poly c)
      · rw [updatedRow_other_col _ poly c col hcol] at h
        exact h
    · rw [cellAt_applyRowUpdate_other_row p ri poly c r col hr] at h
      exact h
  · unfold Processor.cellAt at h
    rw [applyRowUpdate_oob p ri poly c hb] at h
    exact h

theorem frame_apply_listP {T E : Type} [CommRing T] [DecidableEq T]
    (prop : Processor T E → Nat → AlgebraicReference → Constraint T →
      Option (Processor T E))
    (hprop : ∀ p ri poly c q, prop p ri poly c = some q → Frame p q)
    (cs : List (AlgebraicReference × Constraint T)) :
    ∀ (p : Processor T E) (ri : Nat) (b : Bool) (q : Processor T E)
      (prog : Bool), apply_listP prop p ri cs b = some (q, prog) → Frame p q := by
  induction cs with
  | nil =>
    intro p ri b q prog h
    simp only [apply_listP, Option.some.injEq, Prod.mk.injEq] at h
    rw [← h.1]
    exact Frame.refl p
  | cons pc rest ih =>
    obtain ⟨poly, c⟩ := pc
    intro p ri b q prog h
    simp only [apply_listP] at h
    by_cases hw : p.witness_cols poly.poly_id
    · rw [if_pos hw] at h
      by_cases hb : ri + 1 < p.data.length
      · rw [if_pos hb] at h
        cases hp : prop (applyRowUpdate p ri poly c) ri poly c with
        | none => rw [hp] at h; exact absurd h (by simp)
        | some p2 =>
          rw [hp] at h
          exact Frame.trans
            (Frame.trans (frame_applyRowUpdate p ri poly c)
              (hprop _ _ _ _ _ hp))
            (ih p2 ri true q prog h)
      · rw [if_neg hb] at h; exact absurd h (by simp)
    · rw [if_neg hw] at h
      cases c with
      | Assignment v =>
        cases hoq : p.outer_query with
        | none => rw [hoq] at h; exact absurd h (by simp)
        | some oq =>
          rw [hoq] at h
          refine Frame.trans ?_ (ih _ ri true q prog h)
          exact ⟨rfl, rfl, rfl, rfl, rfl, rfl, rfl, rfl, fun _ _ hx => hx⟩
      | RangeConstraint rc => exact ih p ri b q prog h

theorem frame_apply_updatesP {T E : Type} [CommRing T] [DecidableEq T]
    (prop : Processor T E → Nat → AlgebraicReference → Constraint T →
      Option (Processor T E))
    (hprop : ∀ p ri poly c q, prop p ri poly c = some q → Frame p q)
    (p : Processor T E) (ri : Nat) (updates : EvalValue T)
    (q : Processor T E) (prog : Bool)
    (h : apply_updatesP prop p ri updates = some (q, prog)) : Frame p q := by
  unfold apply_updatesP at h
  by_cases he : updates.constraints.isEmpty
  · rw [if_pos he] at h
    simp only [Option.some.injEq, Prod.mk.injEq] at h
    rw [← h.1]
    exact Frame.refl p
  · rw [if_neg he] at h
    exact frame_apply_listP prop hprop updates.constraints p ri false q prog h

theorem frame_set_valueP {T E : Type} [CommRing T] [DecidableEq T]
    (prop : Processor T E → Nat → AlgebraicReference → Constraint T →
      Option (Processor T E))
    (hprop : ∀ p ri poly c q, prop p ri poly c = some q → Frame p q)
    (ctx : Ctx T E) (p : Processor T E) (ri : Nat) (e : E) (v : T)
    (q : Processor T E) (b : Bool)
    (h : set_valueP prop ctx p ri e v = PResult.ok (q, b)) : Frame p q := by
  unfold set_valueP at h
  split at h
  · exact absurd h (by simp)
  · split at h
    · exact absurd h (by simp)
    · split at h
      · exact absurd h (by simp)
      · rename_i r happ
        simp only [PResult.ok.injEq] at h
        rw [h] at happ
        exact frame_apply_updatesP prop hprop p ri _ q b happ

theorem frame_propOthers {T E : Type} [CommRing T] [DecidableEq T]
    (sv : Processor T E → Nat → E → T → PResult Unit (Processor T E × Bool))
    (hsv : ∀ p ri e v q b, sv p ri e v = PResult.ok (q, b) → Frame p q)
    (ctx : Ctx T E) (v : T)
    (others : List (PolyID × Nat)) :
    ∀ (p q : Processor T E), propOthers sv ctx v p others = some q → Frame p q := by
  induction others with
  | nil =>
    intro p q h
    simp only [propOthers, Option.some.injEq] at h
    rw [← h]
    exact Frame.refl p
  | cons o rest ih =>
    obtain ⟨opid, orow⟩ := o
    intro p q h
    simp only [propOthers] at h
    by_cases hp : opid.ptype = PolynomialType.Committed
    · rw [if_pos hp] at h
      cases hs : sv p (orow - p.row_offset) (ctx.colExpr opid) v with
      | ok r =>
        obtain ⟨p2, b⟩ := r
        rw [hs] at h
        exact Frame.trans (hsv _ _ _ _ _ _ hs) (ih p2 q h)
      | err e => rw [hs] at h; exact absurd h (by simp)
      | fatal => rw [hs] at h; exact absurd h (by simp)
    · rw [if_neg hp] at h; exact absurd h (by simp)

theorem frame_propagateStep {T E : Type} [CommRing T] [DecidableEq T]
    (sv : Processor T E → Nat → E → T → PResult Unit (Processor T E × Bool))
    (hsv : ∀ p ri e v q b, sv p ri e v = PResult.ok (q, b) → Frame p q)
    (ctx : Ctx T E) (p : Processor T E) (ri : Nat)
    (poly : AlgebraicReference) (c : Constraint T) (q : Processor T E)
    (h : propagateStep sv ctx p ri poly c = some q) : Frame p q := by
  unfold propagateStep at h
  by_cases he : p.copy_constraints.isEmpty
  · rw [if_pos he] at h
    simp only [Option.some.injEq] at h
    rw [← h]
    exact Frame.refl p
  · rw [if_neg he] at h
    cases c with
    | Assignment v => exact frame_propOthers sv hsv ctx v _ p q h
    | RangeConstraint rc =>
      simp only [Option.some.injEq] at h
      rw [← h]
      exact Frame.refl p

theorem frame_propagateFuel {T E : Type} [CommRing T] [DecidableEq T]
    (ctx : Ctx T E) :
    ∀ (fuel : Nat) (p : Processor T E) (ri : Nat) (poly : AlgebraicReference)
      (c : Constraint T) (q : Processor T E),
      propagateFuel ctx fuel p ri poly c = some q → Frame p q := by
  intro fuel
  induction fuel with
  | zero =>
    intro p ri poly c q h
    simp only [propagateFuel] at h
    by_cases he : p.copy_constraints.isEmpty
    · rw [if_pos he] at h
      simp only [Option.some.injEq] at h
      rw [← h]
      exact Frame.refl p
    · rw [if_neg he] at h; exact absurd h (by simp)
  | succ fuel ih =>
    intro p ri poly c q h
    simp only [propagateFuel] at h
    exact frame_propagateStep _
      (fun p2 ri2 e v q2 b hs =>
        frame_set_valueP (propagateFuel ctx fuel)
          (fun p3 ri3 poly3 c3 q3 hq => ih p3 ri3 poly3 c3 q3 hq)
          ctx p2 ri2 e v q2 b hs)
      ctx p ri poly c q h

theorem frame_apply_updatesF {T E : Type} [CommRing T] [DecidableEq T]
    (ctx : Ctx T E) (fuel : Nat) (p : Processor T E) (ri : Nat)
    (updates : EvalValue T) (q : Processor T E) (prog : Bool)
    (h : apply_updatesF ctx fuel p ri updates = some (q, prog)) : Frame p q :=
  frame_apply_updatesP _ (frame_propagateFuel ctx fuel) p ri updates q prog h

theorem frame_set_valueF {T E : Type} [CommRing T] [DecidableEq T]
    (ctx : Ctx T E) (fuel : Nat) (p : Processor T E) (ri : Nat) (e : E)
    (v : T) (q : Processor T E) (b : Bool)
    (h : set_valueF ctx fuel p ri e v = PResult.ok (q, b)) : Frame p q :=
  frame_set_valueP _ (frame_propagateFuel ctx fuel) ctx p ri e v q b h

/-- C8: `is_complete` on an outer query holds exactly when every caller-side
left affine expression is a concrete constant (no nonzero coefficient), and
`finished_outer_query` holds exactly when there is no outer query or the
outer query is complete in that sense. -/
theorem outer_query_completion_spec {T E : Type} [CommRing T] [DecidableEq T]
    (oq : OuterQuery T E) (p : Processor T E) :
    (oq.is_complete = true ↔ ∀ l ∈ oq.left, ∀ kv ∈ l.coefficients, kv.2 = (0 : T)) ∧
    (p.finished_outer_query = true ↔
      p.outer_query = none ∨
        ∃ oq2, p.outer_query = some oq2 ∧ oq2.is_complete = true) := by
  constructor
  · simp [OuterQuery.is_complete, AffineExpression.is_constant, List.all_eq_true]
  · cases hoq : p.outer_query with
    | none => simp [Processor.finished_outer_query, hoq]
    | some oq2 => simp [Processor.finished_outer_query, hoq]

/-- Witness: the completion characterization at a concrete outer query and a
concrete processor. -/
theorem outer_query_completion_spec_witness :
    (oqW.is_complete = true ↔
      ∀ l ∈ oqW.left, ∀ kv ∈ l.coefficients, kv.2 = (0 : Int)) ∧
    (procW.finished_outer_query = true ↔
      procW.outer_query = none ∨
        ∃ oq2, procW.outer_query = some oq2 ∧ oq2.is_complete = true) :=
  outer_query_completion_spec oqW procW

/-- C1: with the check-only strategy (unknowns treated as zero), a successful
`process_identity` leaves the processor untouched and reports no progress and
no completion, and this can only happen when the identity processor derived no
constraint and no side effect; any derived constraint or side effect makes the
call fatal (defensive assertion) instead. -/
theorem process_identity_zero_pure {T E : Type} [CommRing T] [DecidableEq T]
    (ctx : Ctx T E) (fuel : Nat) (p : Processor T E)
    (ip : RowPair T → Except String (EvalValue T)) (row_index : Nat) :
    (∀ p2 r, process_identity ctx fuel p ip row_index UnknownStrategy.Zero =
        PResult.ok (p2, r) →
      p2 = p ∧ r.progress = false ∧ r.is_complete = false ∧
      ∃ rp updates, mkRowPair p row_index UnknownStrategy.Zero = some rp ∧
        ip rp = Except.ok updates ∧ updates.constraints = [] ∧
        updates.side_effect = false) ∧
    (∀ rp updates, mkRowPair p row_index UnknownStrategy.Zero = some rp →
      ip rp = Except.ok updates →
      updates.constraints ≠ [] ∨ updates.side_effect = true →
      process_identity ctx fuel p ip row_index UnknownStrategy.Zero =
        PResult.fatal) := by
  constructor
  · intro p2 r h
    unfold process_identity at h
    split at h
    · exact absurd h (by simp)
    · rename_i rp hrp
      split at h
      · exact absurd h (by simp)
      · rename_i updates hip
        by_cases hc : updates.constraints.isEmpty && !updates.side_effect
        · rw [if_pos hc] at h
          simp only [PResult.ok.injEq, Prod.mk.injEq] at h
          obtain ⟨hp, hr⟩ := h
          simp only [Bool.and_eq_true, Bool.not_eq_true'] at hc
          obtain ⟨hce, hse⟩ := hc
          refine ⟨hp.symm, ?_, ?_, rp, updates, hrp, hip,
            List.isEmpty_iff.mp hce, hse⟩
          · rw [← hr]
          · rw [← hr]
        · rw [if_neg hc] at h
          exact absurd h (by simp)
  · intro rp updates hrp hip hbad
    unfold process_identity
    have hc : ¬ ((updates.constraints.isEmpty && !updates.side_effect) = true) := by
      intro hc
      simp only [Bool.and_eq_true, Bool.not_eq_true'] at hc
      obtain ⟨hce, hse⟩ := hc
      rcases hbad with hb | hb
      · exact hb (List.isEmpty_iff.mp hce)
      · rw [hse] at hb
        exact Bool.false_ne_true hb
    simp only [hrp, hip, if_neg hc]

/-- Witness: a no-constraint answer yields an untouched processor with no
progress, and a constraint-producing answer in check-only mode is fatal. -/
theorem process_identity_zero_pure_witness :
    (procW = procW ∧ (false : Bool) = false ∧ (false : Bool) = false ∧
      ∃ rp updates, mkRowPair procW 0 UnknownStrategy.Zero = some rp ∧
        ip0 rp = Except.ok updates ∧ updates.constraints = [] ∧
        updates.side_effect = false) ∧
    process_identity ctx0 0 procW ipBad 0 UnknownStrategy.Zero =
      PResult.fatal :=
  ⟨(process_identity_zero_pure ctx0 0 procW ip0 0).1 procW
      { progress := false, is_complete := false } rfl,
   (process_identity_zero_pure ctx0 0 procW ipBad 0).2 rpW
      { constraints := [(refY, Constraint.Assignment 3)], side_effect := false,
        complete := true }
      rfl rfl (Or.inl (by simp))⟩

theorem propagateFuel_cc_empty {T E : Type} [CommRing T] [DecidableEq T]
    (ctx : Ctx T E) (fuel : Nat) (p : Processor T E) (ri : Nat)
    (poly : AlgebraicReference) (c : Constraint T)
    (hcc : p.copy_constraints = []) :
    propagateFuel ctx fuel p ri poly c = some p := by
  cases fuel with
  | zero => simp [propagateFuel, hcc]
  | succ fuel => simp [propagateFuel, propagateStep, hcc]

/-- C5: a derived constraint on a caller-owned column never writes a cell of
this machine's window: an assignment is folded into every caller-side left
expression of the outer query with progress reported, while a range
constraint is dropped with no effect at all. -/
theorem apply_updates_nonowned {T E : Type} [CommRing T] [DecidableEq T]
    (ctx : Ctx T E) (fuel : Nat) (p : Processor T E) (ri : Nat)
    (poly : AlgebraicReference) (oq : OuterQuery T E) (se comp : Bool)
    (hno : p.witness_cols poly.poly_id = false)
    (hoq : p.outer_query = some oq) :
    (∀ v, apply_updatesF ctx fuel p ri
        { constraints := [(poly, Constraint.Assignment v)], side_effect := se,
          complete := comp } =
      some (foldCallerAssignment p oq poly v, true)) ∧
    (∀ rc, apply_updatesF ctx fuel p ri
        { constraints := [(poly, Constraint.RangeConstraint rc)],
          side_effect := se, complete := comp } =
      some (p, false)) := by
  constructor
  · intro v
    unfold apply_updatesF apply_updatesP
    simp [apply_listP, hno, hoq, foldCallerAssignment]
  · intro rc
    unfold apply_updatesF apply_updatesP
    simp [apply_listP, hno]

/-- Witness: a caller-owned assignment folds into the outer query with
progress, and a caller-owned range constraint is dropped without progress. -/
theorem apply_updates_nonowned_witness :
    (apply_updatesF ctx0 1 procOQ 0
        { constraints := [(refY, Constraint.Assignment 9)], side_effect := false,
          complete := true } =
      some (foldCallerAssignment procOQ oqW refY 9, true)) ∧
    (apply_updatesF ctx0 1 procOQ 0
        { constraints := [(refY, Constraint.RangeConstraint { lo := 0, hi := 1 })],
          side_effect := false, complete := true } =
      some (procOQ, false)) :=
  ⟨(apply_updates_nonowned ctx0 1 procOQ 0 refY oqW false true rfl rfl).1 9,
   (apply_updates_nonowned ctx0 1 procOQ 0 refY oqW false true rfl rfl).2
      { lo := 0, hi := 1 }⟩

/-- C7: when the connecting identity declares a selector and the attempt to
set it to one fails with an incomplete evaluation, `process_outer_query`
absorbs the failure as no progress and proceeds; an error result can only come
from the link routine itself. -/
theorem process_outer_query_selector_absorbed {T E : Type} [CommRing T]
    [DecidableEq T] (ctx : Ctx T E) (fuel : Nat) (p : Processor T E)
    (link : OuterQuery T E → RowPair T → Except String (EvalValue T))
    (ri : Nat) (oq : OuterQuery T E) (sel : E) (rp : RowPair T) (e : Unit)
    (hoq : p.outer_query = some oq) (hsel : oq.right_selector = some sel)
    (hrp : mkRowPair p ri UnknownStrategy.Unknown = some rp)
    (heval : ctx.evaluate rp sel = Except.error e) :
    process_outer_query ctx fuel p link ri = pq_rest ctx fuel p link ri false ∧
    (∀ msg, process_outer_query ctx fuel p link ri = PResult.err msg →
      link oq rp = Except.error msg) := by
  have hsv : set_valueF ctx fuel p ri sel 1 = PResult.err e := by
    unfold set_valueF set_valueP
    simp only [hrp, heval]
  have hfirst : process_outer_query ctx fuel p link ri =
      pq_rest ctx fuel p link ri false := by
    unfold process_outer_query pq_selector
    simp only [hoq, hsel, hsv]
  refine ⟨hfirst, ?_⟩
  intro msg hmsg
  rw [hfirst] at hmsg
  unfold pq_rest at hmsg
  simp only [hoq, hrp] at hmsg
  cases hlink : link oq rp with
  | error e2 =>
    simp only [hlink, PResult.err.injEq] at hmsg
    rw [hmsg]
  | ok updates =>
    simp only [hlink] at hmsg
    cases happ : apply_updatesF ctx fuel p ri updates with
    | none =>
      simp only [happ] at hmsg
      exact PResult.noConfusion hmsg
    | some r =>
      obtain ⟨p2, prog2⟩ := r
      simp only [happ] at hmsg
      exact PResult.noConfusion hmsg

/-- Witness: the selector-absorption theorem at a concrete selector-carrying
processor whose evaluation always reports incompleteness. -/
theorem process_outer_query_selector_absorbed_witness :
    (process_outer_query ctx0 0 procSel link0 0 =
      pq_rest ctx0 0 procSel link0 0 false) ∧
    (∀ msg, process_outer_query ctx0 0 procSel link0 0 = PResult.err msg →
      link0 oqSel rpU = Except.error msg) :=
  process_outer_query_selector_absorbed ctx0 0 procSel link0 0 oqSel () rpU ()
    rfl rfl rfl rfl

/-- Counterexample to C9: at row index 0 with a next-row reference the
assertion `row_index > 0` fires (the call does not return a Boolean at all),
so the claim does not hold for every row index. -/
theorem check_row_pair_zero_next_fatal :
    check_row_pair procW ip0 0 (defaultRow Int) true = none := rfl

/-- C9 (amended): provided the row index is positive and the previous row is
stored whenever the identity references the next row, `check_row_pair`
returns: false exactly when the identity processor reports a violation on the
constructed check-only row pair, true otherwise. -/
theorem check_row_pair_amended {T E : Type} (p : Processor T E)
    (ip : RowPair T → Except String (EvalValue T)) (ri : Nat)
    (proposed : Row T) (hnext : Bool)
    (hb : hnext = true → 0 < ri ∧ ri - 1 < p.data.length) :
    check_row_pair p ip ri proposed hnext =
      some (match ip (checkRowPairView p ri proposed hnext) with
            | Except.error _ => false
            | Except.ok _ => true) := by
  cases hnext with
  | false => rfl
  | true =>
    obtain ⟨h0, hlen⟩ := hb rfl
    unfold check_row_pair
    rw [if_neg (Nat.pos_iff_ne_zero.mp h0), if_pos hlen]
    rfl

/-- Witness: the amended row check at row 1 of a two-row processor. -/
theorem check_row_pair_amended_witness :
    check_row_pair procW ip0 1 (defaultRow Int) true =
      some (match ip0 (checkRowPairView procW 1 (defaultRow Int) true) with
            | Except.error _ => false
            | Except.ok _ => true) :=
  check_row_pair_amended procW ip0 1 (defaultRow Int) true
    (fun _ => ⟨by decide, by decide⟩)

/-- Counterexample to C6: applying the same derived assignment twice to the
same owned cell reports progress again on the second application (the first
application makes the cell known with the value, yet the second still returns
progress = true, not false). -/
theorem apply_updates_twice_progress :
    ((apply_updatesF ctx0 1 procW 0 uC6).map
      (fun r => (r.1.cellAt 0 pidX, r.2)) = some (CellValue.Known 5, true)) ∧
    (((apply_updatesF ctx0 1 procW 0 uC6).bind
        (fun r => apply_updatesF ctx0 1 r.1 0 uC6)).map (fun r => r.2) =
      some true) :=
  ⟨rfl, rfl⟩

theorem apply_updatesF_single_owned {T E : Type} [CommRing T] [DecidableEq T]
    (ctx : Ctx T E) (fuel : Nat) (p : Processor T E) (ri : Nat)
    (poly : AlgebraicReference) (v : T) (se comp : Bool)
    (hcc : p.copy_constraints = [])
    (hw : p.witness_cols poly.poly_id = true)
    (hb : ri + 1 < p.data.length) :
    apply_updatesF ctx fuel p ri
      { constraints := [(poly, Constraint.Assignment v)], side_effect := se,
        complete := comp } =
      some (applyRowUpdate p ri poly (Constraint.Assignment v), true) := by
  have hcc2 : (applyRowUpdate p ri poly (Constraint.Assignment v)).copy_constraints = [] := hcc
  unfold apply_updatesF apply_updatesP
  simp [apply_listP, hw, hb, propagateFuel_cc_empty ctx fuel _ ri poly _ hcc2]

theorem apply_updatesF_single_owned_oob {T E : Type} [CommRing T]
    [DecidableEq T] (ctx : Ctx T E) (fuel : Nat) (p : Processor T E) (ri : Nat)
    (poly : AlgebraicReference) (v : T) (se comp : Bool)
    (hw : p.witness_cols poly.poly_id = true)
    (hb : ¬ ri + 1 < p.data.length) :
    apply_updatesF ctx fuel p ri
      { constraints := [(poly, Constraint.Assignment v)], side_effect := se,
        complete := comp } = none := by
  unfold apply_updatesF apply_updatesP
  simp [apply_listP, hw, hb]

/-- C6 (amended): applying the same derived assignment twice to the same
owned cell is idempotent in state (every cell is unchanged by the second
application, which rewrites the already-known value), but not in the progress
report: each application, the second included, reports progress = true for an
owned constraint regardless of whether the cell value changed. -/
theorem apply_updates_twice_amended {T E : Type} [CommRing T] [DecidableEq T]
    (ctx : Ctx T E) (fuel : Nat) (p : Processor T E) (ri : Nat)
    (poly : AlgebraicReference) (v : T) (se comp : Bool)
    (q1 q2 : Processor T E) (prog1 prog2 : Bool)
    (hcc : p.copy_constraints = [])
    (hw : p.witness_cols poly.poly_id = true)
    (h1 : apply_updatesF ctx fuel p ri
      { constraints := [(poly, Constraint.Assignment v)], side_effect := se,
        complete := comp } = some (q1, prog1))
    (h2 : apply_updatesF ctx fuel q1 ri
      { constraints := [(poly, Constraint.Assignment v)], side_effect := se,
        complete := comp } = some (q2, prog2)) :
    prog1 = true ∧ prog2 = true ∧
    q1.cellAt (targetIndex ri poly) poly.poly_id = CellValue.Known v ∧
    (∀ r c, q2.cellAt r c = q1.cellAt r c) := by
  by_cases hb : ri + 1 < p.data.length
  · rw [apply_updatesF_single_owned ctx fuel p ri poly v se comp hcc hw hb] at h1
    simp only [Option.some.injEq, Prod.mk.injEq] at h1
    obtain ⟨hq1, hp1⟩ := h1
    have hcc1 : q1.copy_constraints = [] := by rw [← hq1]; exact hcc
    have hw1 : q1.witness_cols poly.poly_id = true := by rw [← hq1]; exact hw
    have hlen1 : q1.data.length = p.data.length := by
      rw [← hq1]; simp [applyRowUpdate, applyRowUpdateData]
    have hb1 : ri + 1 < q1.data.length := by rw [hlen1]; exact hb
    rw [apply_updatesF_single_owned ctx fuel q1 ri poly v se comp hcc1 hw1 hb1] at h2
    simp only [Option.some.injEq, Prod.mk.injEq] at h2
    obtain ⟨hq2, hp2⟩ := h2
    have htl : targetIndex ri poly < p.data.length := by
      cases hn : poly.next <;> simp [targetIndex, hn] <;> omega
    have htl1 : targetIndex ri poly < q1.data.length := by rw [hlen1]; exact htl
    have hrow1 : q1.data.getD (targetIndex ri poly) (defaultRow T) =
        updatedRow (p.data.getD (targetIndex ri poly) (defaultRow T)) poly
          (Constraint.Assignment v) := by
      rw [← hq1]
      exact getD_set_self _ _ _ _ htl
    refine ⟨hp1.symm, hp2.symm, ?_, ?_⟩
    · rw [← hq1, cellAt_applyRowUpdate_target p ri poly _ _ htl]
      simp [updatedRow, Function.update_same]
    · intro r c
      have hdata : q2.data = q1.data := by
        rw [← hq2]
        show (applyRowUpdateData q1 ri poly (Constraint.Assignment v)) = q1.data
        unfold applyRowUpdateData
        rw [hrow1]
        have hupd : updatedRow
            (updatedRow (p.data.getD (targetIndex ri poly) (defaultRow T)) poly
              (Constraint.Assignment v)) poly (Constraint.Assignment v) =
            updatedRow (p.data.getD (targetIndex ri poly) (defaultRow T)) poly
              (Constraint.Assignment v) := by
          simp [updatedRow, Function.update_idem]
        rw [hupd, ← hq1]
        show (applyRowUpdateData p ri poly (Constraint.Assignment v)).set _ _ =
          applyRowUpdateData p ri poly (Constraint.Assignment v)
        unfold applyRowUpdateData
        exact List.set_set _ _ _ _
      unfold Processor.cellAt
      rw [hdata]
  · rw [apply_updatesF_single_owned_oob ctx fuel p ri poly v se comp hw hb] at h1
    exact absurd h1 (by simp)

/-- Witness: the double application at a concrete cell: both applications
report progress and the second leaves every cell as the first did. -/
theorem apply_updates_twice_amended_witness :
    (true : Bool) = true ∧ (true : Bool) = true ∧
    (applyRowUpdate procW 0 refX (Constraint.Assignment 5)).cellAt
      (targetIndex 0 refX) refX.poly_id = CellValue.Known 5 ∧
    (∀ r c,
      (applyRowUpdate (applyRowUpdate procW 0 refX (Constraint.Assignment 5)) 0
        refX (Constraint.Assignment 5)).cellAt r c =
      (applyRowUpdate procW 0 refX (Constraint.Assignment 5)).cellAt r c) :=
  apply_updates_twice_amended ctx0 1 procW 0 refX 5 false true _ _ _ _
    rfl rfl rfl rfl

/-- Counterexample to C3: in the spec's scenario (column forced to 7 with the
force record at row 0, rows 0..4 known 7, re-forced at row 5) the rows 0..5
ARE reset to unknown: row 0, known 7 beforehand, is unknown after the call.
The code performs the undo whenever a previously-forced column receives a
fresh forced value; it has no continuity check. -/
theorem set_inputs_reset_counterexample :
    procC3.cellAt 0 pidX = CellValue.Known 7 ∧
    procC3.previously_set_inputs pidX = some 0 ∧
    (set_inputs_if_unset ctx0 1 procC3 5).map
      (fun r => (r.1.cellAt 0 pidX, r.2)) = some (CellValue.Unknown, true) :=
  ⟨rfl, rfl, rfl⟩

/-- C3 (amended): in that scenario the call resets every row in `[0, 5)` of
the forced column to unknown (regardless of the run being the immediate
continuation of the recorded force), re-forces row 5 to the target value 7,
and updates the force record to row 5. -/
theorem set_inputs_reset_amended :
    (set_inputs_if_unset ctx0 1 procC3 5).map
      (fun r => ((List.range 6).map (fun i => r.1.cellAt i pidX),
                 r.1.previously_set_inputs pidX, r.2)) =
      some ([CellValue.Unknown, CellValue.Unknown, CellValue.Unknown,
             CellValue.Unknown, CellValue.Unknown, CellValue.Known 7],
            some 5, true) := rfl

theorem frame_pq_selector {T E : Type} [CommRing T] [DecidableEq T]
    (ctx : Ctx T E) (fuel : Nat) (p : Processor T E) (ri : Nat)
    (p1 : Processor T E) (prog : Bool)
    (h : pq_selector ctx fuel p ri = PResult.ok (p1, prog)) : Frame p p1 := by
  unfold pq_selector at h
  split at h
  · exact PResult.noConfusion h
  · split at h
    · simp only [PResult.ok.injEq, Prod.mk.injEq] at h
      rw [← h.1]
      exact Frame.refl p
    · split at h
      · rename_i r2 hsv
        simp only [PResult.ok.injEq, Prod.mk.injEq] at h
        obtain ⟨h1, h2⟩ := h
        rw [← h1]
        exact frame_set_valueF ctx fuel p ri _ _ _ _ hsv
      · simp only [PResult.ok.injEq, Prod.mk.injEq] at h
        rw [← h.1]
        exact Frame.refl p
      · exact PResult.noConfusion h

/-- C4: a successful `process_outer_query` returns as outward assignments
exactly those derived constraints of the link that are assignments on columns
not owned by this machine: every returned entry is an assignment on a
non-owned column, and the returned list is the filter of the link's derived
constraints keeping exactly those; range constraints never appear. -/
theorem process_outer_query_outward {T E : Type} [CommRing T] [DecidableEq T]
    (ctx : Ctx T E) (fuel : Nat) (p : Processor T E)
    (link : OuterQuery T E → RowPair T → Except String (EvalValue T))
    (ri : Nat) (q : Processor T E) (prog : Bool)
    (outs : List (AlgebraicReference × Constraint T))
    (hrel : ∀ pid, p.is_relevant_witness pid = p.witness_cols pid)
    (h : process_outer_query ctx fuel p link ri = PResult.ok (q, (prog, outs))) :
    (∀ pc ∈ outs, (∃ v, pc.2 = Constraint.Assignment v) ∧
      p.witness_cols pc.1.poly_id = false) ∧
    (∃ p1 prog1 oq rp updates,
      pq_selector ctx fuel p ri = PResult.ok (p1, prog1) ∧
      p1.outer_query = some oq ∧
      mkRowPair p1 ri UnknownStrategy.Unknown = some rp ∧
      link oq rp = Except.ok updates ∧
      outs = updates.constraints.filter (outwardKeep p)) := by
  unfold process_outer_query at h
  cases hps : pq_selector ctx fuel p ri with
  | fatal => rw [hps] at h; exact PResult.noConfusion h
  | err e => rw [hps] at h; exact PResult.noConfusion h
  | ok r1 =>
    obtain ⟨p1, prog1⟩ := r1
    simp only [hps] at h
    have hf1 : Frame p p1 := frame_pq_selector ctx fuel p ri p1 prog1 hps
    unfold pq_rest at h
    cases hoq : p1.outer_query with
    | none => rw [hoq] at h; exact PResult.noConfusion h
    | some oq =>
      simp only [hoq] at h
      cases hrp : mkRowPair p1 ri UnknownStrategy.Unknown with
      | none => rw [hrp] at h; exact PResult.noConfusion h
      | some rp =>
        simp only [hrp] at h
        cases hlink : link oq rp with
        | error e2 => rw [hlink] at h; exact PResult.noConfusion h
        | ok updates =>
          simp only [hlink] at h
          cases happ : apply_updatesF ctx fuel p1 ri updates with
          | none => rw [happ] at h; exact PResult.noConfusion h
          | some r2 =>
            obtain ⟨p2, prog2⟩ := r2
            simp only [happ, PResult.ok.injEq, Prod.mk.injEq] at h
            obtain ⟨hq, hpr, houts⟩ := h
            have hf2 : Frame p1 p2 :=
              frame_apply_updatesF ctx fuel p1 ri updates p2 prog2 happ
            have hirw : ∀ pid, p2.is_relevant_witness pid = p.witness_cols pid := by
              intro pid
              rw [hf2.irw, hf1.irw]
              exact hrel pid
            have hfun : outs = updates.constraints.filter (outwardKeep p) := by
              rw [← houts]
              apply List.filter_congr
              intro pc _
              unfold outwardKeep
              cases pc.2 with
              | Assignment v => simp [hirw]
              | RangeConstraint rc => simp
            refine ⟨?_, p1, prog1, oq, rp, updates, rfl, hoq, hrp, hlink, hfun⟩
            intro pc hpc
            rw [hfun] at hpc
            obtain ⟨hmem, hfilt⟩ := List.mem_filter.mp hpc
            have hfilt2 : (match pc.2 with
                | Constraint.Assignment _ => !(p.witness_cols pc.1.poly_id)
                | Constraint.RangeConstraint _ => false) = true := hfilt
            cases hc : pc.2 with
            | Assignment v =>
              simp only [hc, Bool.not_eq_true'] at hfilt2
              exact ⟨⟨v, rfl⟩, hfilt2⟩
            | RangeConstraint rc =>
              simp only [hc] at hfilt2
              exact absurd hfilt2 (by simp)

/-- Witness: the outward-assignment characterization at a concrete processor
whose link derives no constraints (the outward list is empty). -/
theorem process_outer_query_outward_witness :
    (∀ pc ∈ ([] : List (AlgebraicReference × Constraint Int)),
      (∃ v, pc.2 = Constraint.Assignment v) ∧
      procOQ.witness_cols pc.1.poly_id = false) ∧
    (∃ p1 prog1 oq rp updates,
      pq_selector ctx0 0 procOQ 0 = PResult.ok (p1, prog1) ∧
      p1.outer_query = some oq ∧
      mkRowPair p1 0 UnknownStrategy.Unknown = some rp ∧
      link0 oq rp = Except.ok updates ∧
      ([] : List (AlgebraicReference × Constraint Int)) =
        updates.constraints.filter (outwardKeep procOQ)) :=
  process_outer_query_outward ctx0 0 procOQ link0 0 procOQ false []
    (fun _ => rfl) rfl

theorem foldl_cc_preserved {T E α : Type}
    (f : Processor T E → α → Processor T E)
    (hf : ∀ p a, (f p a).copy_constraints = p.copy_constraints) :
    ∀ (l : List α) (p : Processor T E),
      (l.foldl f p).copy_constraints = p.copy_constraints := by
  intro l
  induction l with
  | nil => intro p; rfl
  | cons a rest ih => intro p; rw [List.foldl_cons, ih (f p a), hf p a]

theorem cc_resetRun {T E : Type} (pid : PolyID) (a b : Nat)
    (p : Processor T E) :
    (resetRun pid a b p).copy_constraints = p.copy_constraints := by
  unfold resetRun
  apply foldl_cc_preserved
  intro st r
  rfl

theorem cc_resetPass {T E : Type} (ri : Nat)
    (cs : List (AlgebraicReference × Constraint T)) (p : Processor T E) :
    (resetPass ri cs p).copy_constraints = p.copy_constraints := by
  unfold resetPass
  apply foldl_cc_preserved
  intro st pc
  unfold resetStep
  cases h : st.previously_set_inputs pc.1.poly_id with
  | none => rfl
  | some start_row => simp [cc_resetRun]

theorem cc_recordPass {T E : Type} (ri : Nat)
    (cs : List (AlgebraicReference × Constraint T)) (p : Processor T E) :
    (recordPass ri cs p).copy_constraints = p.copy_constraints := by
  unfold recordPass
  apply foldl_cc_preserved
  intro st pc
  rfl

theorem cc_set_inputs_if_unset {T E : Type} [CommRing T] [DecidableEq T]
    (ctx : Ctx T E) (fuel : Nat) (p q : Processor T E) (ri : Nat) (b : Bool)
    (h : set_inputs_if_unset ctx fuel p ri = some (q, b)) :
    q.copy_constraints = p.copy_constraints := by
  unfold set_inputs_if_unset at h
  by_cases hb : ri < p.data.length
  · rw [if_pos hb] at h
    have hf := frame_apply_updatesF ctx fuel _ ri _ q b h
    rw [hf.cc, cc_recordPass, cc_resetPass]
  · rw [if_neg hb] at h
    exact absurd h (by simp)

theorem frame_process_identity {T E : Type} [CommRing T] [DecidableEq T]
    (ctx : Ctx T E) (fuel : Nat) (p q : Processor T E)
    (ip : RowPair T → Except String (EvalValue T)) (ri : Nat)
    (strat : UnknownStrategy) (r : IdentityResult)
    (h : process_identity ctx fuel p ip ri strat = PResult.ok (q, r)) :
    Frame p q := by
  unfold process_identity at h
  cases hrp : mkRowPair p ri strat with
  | none => rw [hrp] at h; exact PResult.noConfusion h
  | some rp =>
    simp only [hrp] at h
    cases hip : ip rp with
    | error e => rw [hip] at h; exact PResult.noConfusion h
    | ok updates =>
      simp only [hip] at h
      cases strat with
      | Zero =>
        by_cases hc : (updates.constraints.isEmpty && !updates.side_effect) = true
        · rw [if_pos hc] at h
          simp only [PResult.ok.injEq, Prod.mk.injEq] at h
          rw [← h.1]
          exact Frame.refl p
        · rw [if_neg hc] at h
          exact PResult.noConfusion h
      | Unknown =>
        cases happ : apply_updatesF ctx fuel p ri updates with
        | none => rw [happ] at h; exact PResult.noConfusion h
        | some r2 =>
          obtain ⟨p2, prog⟩ := r2
          simp only [happ, PResult.ok.injEq, Prod.mk.injEq] at h
          rw [← h.1]
          exact frame_apply_updatesF ctx fuel p ri updates p2 prog happ

theorem frame_pq_rest {T E : Type} [CommRing T] [DecidableEq T]
    (ctx : Ctx T E) (fuel : Nat) (p q : Processor T E)
    (link : OuterQuery T E → RowPair T → Except String (EvalValue T))
    (ri : Nat) (prog : Bool)
    (z : Bool × List (AlgebraicReference × Constraint T))
    (h : pq_rest ctx fuel p link ri prog = PResult.ok (q, z)) : Frame p q := by
  unfold pq_rest at h
  cases hoq : p.outer_query with
  | none => rw [hoq] at h; exact PResult.noConfusion h
  | some oq =>
    simp only [hoq] at h
    cases hrp : mkRowPair p ri UnknownStrategy.Unknown with
    | none => rw [hrp] at h; exact PResult.noConfusion h
    | some rp =>
      simp only [hrp] at h
      cases hlink : link oq rp with
      | error e => rw [hlink] at h; exact PResult.noConfusion h
      | ok updates =>
        simp only [hlink] at h
        cases happ : apply_updatesF ctx fuel p ri updates with
        | none => rw [happ] at h; exact PResult.noConfusion h
        | some r2 =>
          obtain ⟨p2, prog2⟩ := r2
          simp only [happ, PResult.ok.injEq, Prod.mk.injEq] at h
          rw [← h.1]
          exact frame_apply_updatesF ctx fuel p ri updates p2 prog2 happ

theorem frame_process_outer_query {T E : Type} [CommRing T] [DecidableEq T]
    (ctx : Ctx T E) (fuel : Nat) (p q : Processor T E)
    (link : OuterQuery T E → RowPair T → Except String (EvalValue T))
    (ri : Nat) (z : Bool × List (AlgebraicReference × Constraint T))
    (h : process_outer_query ctx fuel p link ri = PResult.ok (q, z)) :
    Frame p q := by
  unfold process_outer_query at h
  cases hps : pq_selector ctx fuel p ri with
  | fatal => rw [hps] at h; exact PResult.noConfusion h
  | err e => rw [hps] at h; exact PResult.noConfusion h
  | ok r1 =>
    obtain ⟨p1, prog1⟩ := r1
    simp only [hps] at h
    exact Frame.trans (frame_pq_selector ctx fuel p ri p1 prog1 hps)
      (frame_pq_rest ctx fuel p1 q link ri prog1 z h)

theorem frame_process_queries {T E : Type} [CommRing T] [DecidableEq T]
    (ctx : Ctx T E) (fuel : Nat) (p q : Processor T E)
    (qp : RowPair T → PolyID → Option (Except String (EvalValue T)))
    (ri : Nat) (b : Bool)
    (h : process_queries ctx fuel p qp ri = PResult.ok (q, b)) : Frame p q := by
  unfold process_queries at h
  cases hrp : mkRowPair p ri UnknownStrategy.Unknown with
  | none => rw [hrp] at h; exact PResult.noConfusion h
  | some rp =>
    simp only [hrp] at h
    cases hcq : combineQueries (qp rp)
        { constraints := [], side_effect := false, complete := true }
        p.prover_query_witnesses with
    | error e => rw [hcq] at h; exact PResult.noConfusion h
    | ok updates =>
      simp only [hcq] at h
      cases happ : apply_updatesF ctx fuel p ri updates with
      | none => rw [happ] at h; exact PResult.noConfusion h
      | some r2 =>
        obtain ⟨p2, prog⟩ := r2
        simp only [happ, PResult.ok.injEq, Prod.mk.injEq] at h
        rw [← h.1]
        exact frame_apply_updatesF ctx fuel p ri updates p2 prog happ

theorem cc_step {T E : Type} [CommRing T] [DecidableEq T] (ctx : Ctx T E)
    (p q : Processor T E) (h : Step ctx p q) :
    q.copy_constraints = p.copy_constraints := by
  cases h with
  | withOQ oq => rfl
  | ident q2 fuel ip ri strat r hop =>
    exact (frame_process_identity ctx _ _ _ _ _ _ _ hop).cc
  | outer q2 fuel link ri prog outs hop =>
    exact (frame_process_outer_query ctx _ _ _ _ _ _ hop).cc
  | queries q2 fuel qp ri b hop =>
    exact (frame_process_queries ctx _ _ _ _ _ _ hop).cc
  | inputs q2 fuel ri b hop =>
    exact cc_set_inputs_if_unset ctx _ _ _ _ _ hop
  | setval q2 fuel ri e v b hop =>
    exact (frame_set_valueF ctx _ _ _ _ _ _ _ hop).cc
  | setrow q2 i row hop =>
    unfold set_row at hop
    by_cases h1 : i < p.data.length
    · rw [if_pos h1] at hop
      simp only [Option.some.injEq] at hop
      rw [← hop]
    · rw [if_neg h1] at hop
      by_cases h2 : i = p.data.length
      · rw [if_pos h2] at hop
        simp only [Option.some.injEq] at hop
        rw [← hop]
      · rw [if_neg h2] at hop
        exact absurd hop (by simp)
  | fin q2 hop =>
    unfold finalize_range at hop
    by_cases h1 : p.copy_constraints.isEmpty
    · rw [if_pos h1] at hop
      simp only [Option.some.injEq] at hop
      rw [← hop]
    · rw [if_neg h1] at hop
      exact absurd hop (by simp)

/-- C10: every processor built by `Processor::new` has an empty
copy-constraint index, and no operation ever adds one: in every state
reachable by any sequence of operations the index is empty, copy-constraint
propagation is a no-op (it returns the state unchanged), and `finalize_range`
passes its no-copy-constraints assertion. -/
theorem processor_no_copy_constraints {T E : Type} [CommRing T]
    [DecidableEq T] (ctx : Ctx T E) (ro : Nat) (d : List (Row T))
    (wc : PolyID → Bool) (q : Processor T E)
    (h : Reaches ctx (Processor.new ctx ro d wc) q) :
    q.copy_constraints = [] ∧
    (∀ fuel ri poly c, propagateFuel ctx fuel q ri poly c = some q) ∧
    finalize_range q = some q := by
  have hcc : q.copy_constraints = [] := by
    induction h with
    | refl => rfl
    | tail hsteps hstep ih => rw [cc_step ctx _ _ hstep]; exact ih
  exact ⟨hcc,
    fun fuel ri poly c => propagateFuel_cc_empty ctx fuel q ri poly c hcc,
    by simp [finalize_range, hcc]⟩

/-- Witness: the invariant after one concrete operation (installing an outer
query on a freshly constructed processor). -/
theorem processor_no_copy_constraints_witness :
    ((Processor.new ctx0 0 ([] : List (Row Int)) (fun _ => false)).with_outer_query
        ctx0 oqW).copy_constraints = [] ∧
    (∀ fuel ri poly c, propagateFuel ctx0 fuel
        ((Processor.new ctx0 0 ([] : List (Row Int)) (fun _ => false)).with_outer_query
          ctx0 oqW) ri poly c =
      some ((Processor.new ctx0 0 ([] : List (Row Int)) (fun _ => false)).with_outer_query
        ctx0 oqW)) ∧
    finalize_range
        ((Processor.new ctx0 0 ([] : List (Row Int)) (fun _ => false)).with_outer_query
          ctx0 oqW) =
      some ((Processor.new ctx0 0 ([] : List (Row Int)) (fun _ => false)).with_outer_query
        ctx0 oqW) :=
  processor_no_copy_constraints ctx0 0 [] (fun _ => false) _
    (Relation.ReflTransGen.single
      (Step.withOQ (Processor.new ctx0 0 [] (fun _ => false)) oqW))

theorem cellAt_setCellUnknown_other {T E : Type} (pid : PolyID)
    (p : Processor T E) (rr r : Nat) (c : PolyID)
    (h : c ≠ pid ∨ r ≠ rr) :
    (setCellUnknown pid p rr).cellAt r c = p.cellAt r c := by
  unfold Processor.cellAt setCellUnknown
  rcases h with hc | hr
  · by_cases hrr : r = rr
    · subst hrr
      by_cases hb : r < p.data.length
      · rw [getD_set_self _ _ _ _ hb, Function.update_noteq hc]
      · rw [List.set_eq_of_length_le (Nat.le_of_not_lt hb)]
    · rw [getD_set_other _ _ _ _ _ (fun he => hrr he.symm)]
  · rw [getD_set_other _ _ _ _ _ (fun he => hr he.symm)]

theorem cellAt_setCellUnknown_self {T E : Type} (pid : PolyID)
    (p : Processor T E) (rr : Nat) (h : rr < p.data.length) :
    (setCellUnknown pid p rr).cellAt rr pid = CellValue.Unknown := by
  unfold Processor.cellAt setCellUnknown
  rw [getD_set_self _ _ _ _ h, Function.update_same]

theorem len_setCellUnknown {T E : Type} (pid : PolyID) (p : Processor T E)
    (rr : Nat) : (setCellUnknown pid p rr).data.length = p.data.length := by
  simp [setCellUnknown]

theorem cellAt_foldUnknown_other {T E : Type} (pid : PolyID) :
    ∀ (l : List Nat) (p : Processor T E) (r : Nat) (c : PolyID),
      (c ≠ pid ∨ r ∉ l) →
      (l.foldl (setCellUnknown pid) p).cellAt r c = p.cellAt r c := by
  intro l
  induction l with
  | nil => intro p r c _; rfl
  | cons a rest ih =>
    intro p r c h
    rw [List.foldl_cons]
    rcases h with hc | hr
    · rw [ih _ r c (Or.inl hc), cellAt_setCellUnknown_other pid p a r c (Or.inl hc)]
    · have hra : r ≠ a := fun he => hr (he ▸ List.mem_cons_self a rest)
      have hrr : r ∉ rest := fun hm => hr (List.mem_cons_of_mem a hm)
      rw [ih _ r c (Or.inr hrr), cellAt_setCellUnknown_other pid p a r c (Or.inr hra)]

theorem len_foldUnknown {T E : Type} (pid : PolyID) :
    ∀ (l : List Nat) (p : Processor T E),
      (l.foldl (setCellUnknown pid) p).data.length = p.data.length := by
  intro l
  induction l with
  | nil => intro p; rfl
  | cons a rest ih =>
    intro p
    rw [List.foldl_cons, ih, len_setCellUnknown]

theorem cellAt_foldUnknown_mem {T E : Type} (pid : PolyID) :
    ∀ (l : List Nat) (p : Processor T E) (r : Nat),
      r ∈ l → r < p.data.length →
      (l.foldl (setCellUnknown pid) p).cellAt r pid = CellValue.Unknown := by
  intro l
  induction l with
  | nil => intro p r hm; exact absurd hm (List.not_mem_nil r)
  | cons a rest ih =>
    intro p r hm hlen
    rw [List.foldl_cons]
    by_cases hr : r ∈ rest
    · exact ih _ r hr (by rw [len_setCellUnknown]; exact hlen)
    · have hra : r = a := by
        rcases List.mem_cons.mp hm with h1 | h1
        · exact h1
        · exact absurd h1 hr
      subst hra
      rw [cellAt_foldUnknown_other pid rest _ r pid (Or.inr hr)]
      exact cellAt_setCellUnknown_self pid p r hlen

theorem psi_foldUnknown {T E : Type} (pid : PolyID) :
    ∀ (l : List Nat) (p : Processor T E),
      (l.foldl (setCellUnknown pid) p).previously_set_inputs =
        p.previously_set_inputs := by
  intro l
  induction l with
  | nil => intro p; rfl
  | cons a rest ih => intro p; rw [List.foldl_cons, ih]; rfl

theorem wc_foldUnknown {T E : Type} (pid : PolyID) :
    ∀ (l : List Nat) (p : Processor T E),
      (l.foldl (setCellUnknown pid) p).witness_cols = p.witness_cols := by
  intro l
  induction l with
  | nil => intro p; rfl
  | cons a rest ih => intro p; rw [List.foldl_cons, ih]; rfl

theorem cellAt_applyRowUpdate_other_col {T E : Type} (p : Processor T E)
    (ri : Nat) (poly : AlgebraicReference) (c : Constraint T) (r : Nat)
    (col : PolyID) (hcol : col ≠ poly.poly_id) :
    (applyRowUpdate p ri poly c).cellAt r col = p.cellAt r col := by
  by_cases hr : r = targetIndex ri poly
  · subst hr
    by_cases hb : targetIndex ri poly < p.data.length
    · rw [cellAt_applyRowUpdate_target p ri poly c col hb,
        updatedRow_other_col _ poly c col hcol]
      rfl
    · unfold Processor.cellAt
      rw [applyRowUpdate_oob p ri poly c hb]
  · exact cellAt_applyRowUpdate_other_row p ri poly c r col hr

theorem cellAt_resetStep_other_col {T E : Type} (ri : Nat)
    (st : Processor T E) (pc : AlgebraicReference × Constraint T) (r : Nat)
    (c : PolyID) (h : c ≠ pc.1.poly_id) :
    (resetStep ri st pc).cellAt r c = st.cellAt r c := by
  unfold resetStep
  cases hpsi : st.previously_set_inputs pc.1.poly_id with
  | none => rfl
  | some a =>
    unfold resetRun
    rw [cellAt_foldUnknown_other _ _ _ r c (Or.inl h)]
    rfl

theorem cellAt_resetStep_row_ge {T E : Type} (ri : Nat)
    (st : Processor T E) (pc : AlgebraicReference × Constraint T) (r : Nat)
    (c : PolyID) (hr : ri ≤ r) :
    (resetStep ri st pc).cellAt r c = st.cellAt r c := by
  unfold resetStep
  cases hpsi : st.previously_set_inputs pc.1.poly_id with
  | none => rfl
  | some a =>
    unfold resetRun
    rw [cellAt_foldUnknown_other _ _ _ r c (Or.inr ?_)]
    · rfl
    · intro hm
      have := List.mem_range'_1.mp hm
      omega

theorem psi_resetStep {T E : Type} (ri : Nat) (st : Processor T E)
    (pc : AlgebraicReference × Constraint T) (k : PolyID) :
    (resetStep ri st pc).previously_set_inputs k =
      if k = pc.1.poly_id then none else st.previously_set_inputs k := by
  unfold resetStep
  cases hpsi : st.previously_set_inputs pc.1.poly_id with
  | none =>
    by_cases hk : k = pc.1.poly_id
    · rw [if_pos hk, hk, hpsi]
    · rw [if_neg hk]
  | some a =>
    unfold resetRun
    rw [psi_foldUnknown]
    rfl

theorem len_resetStep {T E : Type} (ri : Nat) (st : Processor T E)
    (pc : AlgebraicReference × Constraint T) :
    (resetStep ri st pc).data.length = st.data.length := by
  unfold resetStep
  cases hpsi : st.previously_set_inputs pc.1.poly_id with
  | none => rfl
  | some a =>
    unfold resetRun
    rw [len_foldUnknown]

theorem wc_resetStep {T E : Type} (ri : Nat) (st : Processor T E)
    (pc : AlgebraicReference × Constraint T) :
    (resetStep ri st pc).witness_cols = st.witness_cols := by
  unfold resetStep
  cases hpsi : st.previously_set_inputs pc.1.poly_id with
  | none => rfl
  | some a =>
    unfold resetRun
    rw [wc_foldUnknown]

theorem cellAt_resetStep_reset {T E : Type} (ri : Nat) (st : Processor T E)
    (pc : AlgebraicReference × Constraint T) (a : Nat)
    (hpsi : st.previously_set_inputs pc.1.poly_id = some a) (r : Nat)
    (h1 : a ≤ r) (h2 : r < ri) (hlen : r < st.data.length) :
    (resetStep ri st pc).cellAt r pc.1.poly_id = CellValue.Unknown := by
  unfold resetStep
  rw [hpsi]
  unfold resetRun
  apply cellAt_foldUnknown_mem
  · exact List.mem_range'_1.mpr ⟨h1, by omega⟩
  · exact hlen

theorem cellAt_resetPass_other_col {T E : Type} (ri : Nat) :
    ∀ (cs : List (AlgebraicReference × Constraint T)) (p : Processor T E)
      (r : Nat) (c : PolyID), (∀ pc ∈ cs, pc.1.poly_id ≠ c) →
      (resetPass ri cs p).cellAt r c = p.cellAt r c := by
  intro cs
  induction cs with
  | nil => intro p r c _; rfl
  | cons pc rest ih =>
    intro p r c h
    unfold resetPass at ih ⊢
    rw [List.foldl_cons, ih _ r c (fun x hx => h x (List.mem_cons_of_mem pc hx)),
      cellAt_resetStep_other_col ri p pc r c
        (fun he => h pc (List.mem_cons_self pc rest) he.symm)]

theorem cellAt_resetPass_row_ge {T E : Type} (ri : Nat) :
    ∀ (cs : List (AlgebraicReference × Constraint T)) (p : Processor T E)
      (r : Nat) (c : PolyID), ri ≤ r →
      (resetPass ri cs p).cellAt r c = p.cellAt r c := by
  intro cs
  induction cs with
  | nil => intro p r c _; rfl
  | cons pc rest ih =>
    intro p r c hr
    unfold resetPass at ih ⊢
    rw [List.foldl_cons, ih _ r c hr, cellAt_resetStep_row_ge ri p pc r c hr]

theorem psi_resetPass_other {T E : Type} (ri : Nat) :
    ∀ (cs : List (AlgebraicReference × Constraint T)) (p : Processor T E)
      (k : PolyID), (∀ pc ∈ cs, pc.1.poly_id ≠ k) →
      (resetPass ri cs p).previously_set_inputs k =
        p.previously_set_inputs k := by
  intro cs
  induction cs with
  | nil => intro p k _; rfl
  | cons pc rest ih =>
    intro p k h
    unfold resetPass at ih ⊢
    rw [List.foldl_cons, ih _ k (fun x hx => h x (List.mem_cons_of_mem pc hx)),
      psi_resetStep,
      if_neg (fun he => h pc (List.mem_cons_self pc rest) he.symm)]

theorem len_resetPass {T E : Type} (ri : Nat) :
    ∀ (cs : List (AlgebraicReference × Constraint T)) (p : Processor T E),
      (resetPass ri cs p).data.length = p.data.length := by
  intro cs
  induction cs with
  | nil => intro p; rfl
  | cons pc rest ih =>
    intro p
    unfold resetPass at ih ⊢
    rw [List.foldl_cons, ih, len_resetStep]

theorem wc_resetPass {T E : Type} (ri : Nat) :
    ∀ (cs : List (AlgebraicReference × Constraint T)) (p : Processor T E),
      (resetPass ri cs p).witness_cols = p.witness_cols := by
  intro cs
  induction cs with
  | nil => intro p; rfl
  | cons pc rest ih =>
    intro p
    unfold resetPass at ih ⊢
    rw [List.foldl_cons, ih, wc_resetStep]

theorem cellAt_resetPass_reset {T E : Type} (ri : Nat) :
    ∀ (cs : List (AlgebraicReference × Constraint T)) (p : Processor T E)
      (pid : PolyID) (v : T) (a : Nat),
      (({ poly_id := pid, next := false } : AlgebraicReference),
        Constraint.Assignment v) ∈ cs →
      (cs.map (fun pc => pc.1.poly_id)).Nodup →
      p.previously_set_inputs pid = some a →
      ∀ r, a ≤ r → r < ri → r < p.data.length →
      (resetPass ri cs p).cellAt r pid = CellValue.Unknown := by
  intro cs
  induction cs with
  | nil =>
    intro p pid v a hmem
    exact absurd hmem (List.not_mem_nil _)
  | cons pc rest ih =>
    intro p pid v a hmem hnodup hpsi r h1 h2 hlen
    unfold resetPass at ih ⊢
    rw [List.foldl_cons]
    rcases List.mem_cons.mp hmem with hhead | htail
    · have hkey : pc.1.poly_id = pid := by rw [← hhead]
      have hnotin : ∀ x ∈ rest, x.1.poly_id ≠ pid := by
        intro x hx he
        have hni := (List.nodup_cons.mp hnodup).1
        have hmm : pid ∈ List.map (fun pc2 => pc2.1.poly_id) rest := by
          rw [← he]
          exact List.mem_map_of_mem (fun pc2 => pc2.1.poly_id) hx
        apply hni
        show pc.1.poly_id ∈ _
        rw [hkey]
        exact hmm
      have hoc := cellAt_resetPass_other_col ri rest (resetStep ri p pc) r pid hnotin
      unfold resetPass at hoc
      rw [hoc, ← hkey]
      exact cellAt_resetStep_reset ri p pc a (hkey ▸ hpsi) r h1 h2 hlen
    · have hkeyne : pc.1.poly_id ≠ pid := by
        intro he
        have hni := (List.nodup_cons.mp hnodup).1
        apply hni
        show pc.1.poly_id ∈ _
        rw [he]
        exact List.mem_map_of_mem (fun pc2 => pc2.1.poly_id) htail
      have hpsi2 : (resetStep ri p pc).previously_set_inputs pid = some a := by
        rw [psi_resetStep, if_neg (fun he => hkeyne he.symm)]
        exact hpsi
      have hlen2 : r < (resetStep ri p pc).data.length := by
        rw [len_resetStep]; exact hlen
      exact ih _ pid v a htail (List.nodup_cons.mp hnodup).2 hpsi2 r h1 h2 hlen2

theorem data_recordPass {T E : Type} (ri : Nat) :
    ∀ (cs : List (AlgebraicReference × Constraint T)) (p : Processor T E),
      (recordPass ri cs p).data = p.data := by
  intro cs
  induction cs with
  | nil => intro p; rfl
  | cons pc rest ih =>
    intro p
    unfold recordPass at ih ⊢
    rw [List.foldl_cons, ih]
    rfl

theorem wc_recordPass {T E : Type} (ri : Nat) :
    ∀ (cs : List (AlgebraicReference × Constraint T)) (p : Processor T E),
      (recordPass ri cs p).witness_cols = p.witness_cols := by
  intro cs
  induction cs with
  | nil => intro p; rfl
  | cons pc rest ih =>
    intro p
    unfold recordPass at ih ⊢
    rw [List.foldl_cons, ih]
    rfl

theorem psi_recordPass {T E : Type} (ri : Nat) :
    ∀ (cs : List (AlgebraicReference × Constraint T)) (p : Processor T E)
      (k : PolyID),
      (recordPass ri cs p).previously_set_inputs k =
        if k ∈ cs.map (fun pc => pc.1.poly_id) then some ri
        else p.previously_set_inputs k := by
  intro cs
  induction cs with
  | nil =>
    intro p k
    rw [List.map_nil, if_neg (List.not_mem_nil k)]
    rfl
  | cons pc rest ih =>
    intro p k
    unfold recordPass at ih ⊢
    rw [List.foldl_cons, ih]
    by_cases hrest : k ∈ rest.map (fun pc2 => pc2.1.poly_id)
    · rw [if_pos hrest, if_pos (by rw [List.map_cons]; exact List.mem_cons_of_mem _ hrest)]
    · rw [if_neg hrest]
      by_cases hk : k = pc.1.poly_id
      · rw [if_pos (by rw [List.map_cons, hk]; exact List.mem_cons_self _ _)]
        show psiInsert p.previously_set_inputs pc.1.poly_id ri k = some ri
        unfold psiInsert
        rw [if_pos hk]
      · rw [if_neg (by rw [List.map_cons]; intro hm; rcases List.mem_cons.mp hm with h1 | h1; exact hk h1; exact hrest h1)]
        show psiInsert p.previously_set_inputs pc.1.poly_id ri k =
          p.previously_set_inputs k
        unfold psiInsert
        rw [if_neg hk]

theorem mem_inputConstraints_of {T E : Type} (p : Processor T E) (ri : Nat)
    (pid : PolyID) (v : T) (hmem : (pid, v) ∈ p.inputs)
    (hnk : ∀ w, p.cellAt ri pid ≠ CellValue.Known w) :
    (({ poly_id := pid, next := false } : AlgebraicReference),
      Constraint.Assignment v) ∈ inputConstraints p ri := by
  unfold inputConstraints
  apply List.mem_filterMap.mpr
  refine ⟨(pid, v), hmem, ?_⟩
  cases hc : (p.data.getD ri (defaultRow T)) pid with
  | Known w => exact absurd hc (hnk w)
  | RangeConstraint rc => simp only [hc]
  | Unknown => simp only [hc]

theorem of_mem_inputConstraints {T E : Type} (p : Processor T E) (ri : Nat)
    (pc : AlgebraicReference × Constraint T) (h : pc ∈ inputConstraints p ri) :
    ∃ pv, pv ∈ p.inputs ∧
      pc = ({ poly_id := pv.1, next := false }, Constraint.Assignment pv.2) ∧
      (∀ w, p.cellAt ri pv.1 ≠ CellValue.Known w) := by
  unfold inputConstraints at h
  obtain ⟨pv, hpv, hf⟩ := List.mem_filterMap.mp h
  refine ⟨pv, hpv, ?_⟩
  cases hc : (p.data.getD ri (defaultRow T)) pv.1 with
  | Known w =>
    simp only [hc] at hf
    exact Option.noConfusion hf
  | RangeConstraint rc =>
    simp only [hc, Option.some.injEq] at hf
    refine ⟨hf.symm, ?_⟩
    intro w hw
    unfold Processor.cellAt at hw
    rw [hc] at hw
    exact CellValue.noConfusion hw
  | Unknown =>
    simp only [hc, Option.some.injEq] at hf
    refine ⟨hf.symm, ?_⟩
    intro w hw
    unfold Processor.cellAt at hw
    rw [hc] at hw
    exact CellValue.noConfusion hw

theorem inputKeys_sublist {T E : Type} (p : Processor T E) (ri : Nat) :
    ((inputConstraints p ri).map (fun pc => pc.1.poly_id)).Sublist
      (p.inputs.map Prod.fst) := by
  unfold inputConstraints
  generalize p.inputs = l
  induction l with
  | nil => simp
  | cons pv rest ih =>
    rw [List.filterMap_cons]
    cases hc : (p.data.getD ri (defaultRow T)) pv.1 with
    | Known w =>
      simp only [hc]
      rw [List.map_cons]
      exact List.Sublist.cons _ ih
    | RangeConstraint rc =>
      simp only [hc]
      rw [List.map_cons, List.map_cons]
      exact List.Sublist.cons₂ _ ih
    | Unknown =>
      simp only [hc]
      rw [List.map_cons, List.map_cons]
      exact List.Sublist.cons₂ _ ih

theorem nodup_keys_inputConstraints {T E : Type} (p : Processor T E)
    (ri : Nat) (h : (p.inputs.map Prod.fst).Nodup) :
    ((inputConstraints p ri).map (fun pc => pc.1.poly_id)).Nodup :=
  h.sublist (inputKeys_sublist p ri)

theorem apply_listP_inputs {T E : Type} [CommRing T] [DecidableEq T]
    (ctx : Ctx T E) (fuel : Nat) (ri : Nat) :
    ∀ (cs : List (AlgebraicReference × Constraint T)) (p : Processor T E)
      (b : Bool) (q : Processor T E) (prog : Bool),
      p.copy_constraints = [] →
      (∀ pc ∈ cs, p.witness_cols pc.1.poly_id = true ∧ pc.1.next = false) →
      (cs.map (fun pc => pc.1.poly_id)).Nodup →
      apply_listP (propagateFuel ctx fuel) p ri cs b = some (q, prog) →
      (∀ r c, (r ≠ ri ∨ ∀ pc ∈ cs, pc.1.poly_id ≠ c) →
        q.cellAt r c = p.cellAt r c) ∧
      (∀ pid v,
        (({ poly_id := pid, next := false } : AlgebraicReference),
          Constraint.Assignment v) ∈ cs →
        q.cellAt ri pid = CellValue.Known v) := by
  intro cs
  induction cs with
  | nil =>
    intro p b q prog _ _ _ h
    simp only [apply_listP, Option.some.injEq, Prod.mk.injEq] at h
    obtain ⟨h1, _⟩ := h
    subst h1
    exact ⟨fun _ _ _ => rfl, fun pid v hm => absurd hm (List.not_mem_nil _)⟩
  | cons pc rest ih =>
    obtain ⟨poly, con⟩ := pc
    intro p b q prog hcc hall hnodup h
    have hw : p.witness_cols poly.poly_id = true :=
      (hall _ (List.mem_cons_self _ _)).1
    have hnext : poly.next = false := (hall _ (List.mem_cons_self _ _)).2
    simp only [apply_listP] at h
    rw [if_pos hw] at h
    by_cases hb : ri + 1 < p.data.length
    · rw [if_pos hb] at h
      have hcc1 : (applyRowUpdate p ri poly con).copy_constraints = [] := hcc
      rw [propagateFuel_cc_empty ctx fuel _ ri poly con hcc1] at h
      have hall1 : ∀ x ∈ rest,
          (applyRowUpdate p ri poly con).witness_cols x.1.poly_id = true ∧
          x.1.next = false := by
        intro x hx
        exact hall x (List.mem_cons_of_mem _ hx)
      have ih2 := ih (applyRowUpdate p ri poly con) true q prog hcc1 hall1
        (List.nodup_cons.mp hnodup).2 h
      have htarget : targetIndex ri poly = ri := by
        simp [targetIndex, hnext]
      refine ⟨?_, ?_⟩
      · intro r c hcond
        have hcond1 : r ≠ ri ∨ ∀ x ∈ rest, x.1.poly_id ≠ c := by
          rcases hcond with h1 | h1
          · exact Or.inl h1
          · exact Or.inr (fun x hx => h1 x (List.mem_cons_of_mem _ hx))
        rw [ih2.1 r c hcond1]
        rcases hcond with h1 | h1
        · exact cellAt_applyRowUpdate_other_row p ri poly con r c
            (by rw [htarget]; exact h1)
        · exact cellAt_applyRowUpdate_other_col p ri poly con r c
            (fun he => h1 (poly, con) (List.mem_cons_self _ _) he.symm)
      · intro pid v hm
        rcases List.mem_cons.mp hm with hhead | htail
        · injection hhead with h1 h2
          subst h1
          subst h2
          have hkeys : ∀ x ∈ rest, x.1.poly_id ≠ pid := by
            intro x hx he
            have hni := (List.nodup_cons.mp hnodup).1
            apply hni
            show pid ∈ _
            rw [← he]
            exact List.mem_map_of_mem (fun pc2 => pc2.1.poly_id) hx
          rw [ih2.1 ri pid (Or.inr hkeys)]
          have hb2 : targetIndex ri
              ({ poly_id := pid, next := false } : AlgebraicReference) <
              p.data.length := by
            simp only [targetIndex]
            simp
            omega
          have hcell := cellAt_applyRowUpdate_target p ri
            ({ poly_id := pid, next := false } : AlgebraicReference)
            (Constraint.Assignment v) pid hb2
          rw [show targetIndex ri
              ({ poly_id := pid, next := false } : AlgebraicReference) = ri
            from rfl] at hcell
          rw [hcell]
          simp [updatedRow, Function.update_same]
        · exact ih2.2 pid v htail
    · rw [if_neg hb] at h
      exact absurd h (by simp)

/-- C2: after `set_inputs_if_unset(row)`, every registered forced-input
column either already held a known value at that row (and still holds it) or
now holds its registered target value; every column receiving a fresh forced
value that was previously force-applied at an earlier row has all rows from
that row (inclusive) to the current row (exclusive) reset to unknown and its
force record updated to the current row; and the update-application path (the
only other cell-mutating path: identities, queries, the outer query and
`set_value` all write through it) never regresses any cell to unknown. -/
theorem set_inputs_if_unset_spec {T E : Type} [CommRing T] [DecidableEq T]
    (ctx : Ctx T E) (fuel : Nat) (p q : Processor T E) (ri : Nat) (prog : Bool)
    (hnodup : (p.inputs.map Prod.fst).Nodup)
    (howned : ∀ pv ∈ p.inputs, p.witness_cols pv.1 = true)
    (hcc : p.copy_constraints = [])
    (h : set_inputs_if_unset ctx fuel p ri = some (q, prog)) :
    (∀ pv ∈ p.inputs,
      (∀ w, p.cellAt ri pv.1 = CellValue.Known w →
        q.cellAt ri pv.1 = CellValue.Known w) ∧
      ((∀ w, p.cellAt ri pv.1 ≠ CellValue.Known w) →
        q.cellAt ri pv.1 = CellValue.Known pv.2)) ∧
    (∀ pv ∈ p.inputs, ∀ r1, p.previously_set_inputs pv.1 = some r1 →
      (∀ w, p.cellAt ri pv.1 ≠ CellValue.Known w) →
      (∀ r, r1 ≤ r → r < ri → q.cellAt r pv.1 = CellValue.Unknown) ∧
      q.previously_set_inputs pv.1 = some ri) ∧
    (∀ (fuel2 : Nat) (p2 : Processor T E) (ri2 : Nat) (updates : EvalValue T)
      (q2 : Processor T E) (prog2 : Bool),
      apply_updatesF ctx fuel2 p2 ri2 updates = some (q2, prog2) →
      ∀ r c, q2.cellAt r c = CellValue.Unknown →
        p2.cellAt r c = CellValue.Unknown) := by
  have hnoregress : ∀ (fuel2 : Nat) (p2 : Processor T E) (ri2 : Nat)
      (updates : EvalValue T) (q2 : Processor T E) (prog2 : Bool),
      apply_updatesF ctx fuel2 p2 ri2 updates = some (q2, prog2) →
      ∀ r c, q2.cellAt r c = CellValue.Unknown →
        p2.cellAt r c = CellValue.Unknown :=
    fun fuel2 p2 ri2 updates q2 prog2 h2 r c hu =>
      (frame_apply_updatesF ctx fuel2 p2 ri2 updates q2 prog2 h2).noUnk r c hu
  unfold set_inputs_if_unset at h
  by_cases hri : ri < p.data.length
  · rw [if_pos hri] at h
    have hc32 : ∀ r c,
        (recordPass ri (inputConstraints p ri)
          (resetPass ri (inputConstraints p ri) p)).cellAt r c =
        (resetPass ri (inputConstraints p ri) p).cellAt r c := by
      intro r c
      unfold Processor.cellAt
      rw [data_recordPass]
    unfold apply_updatesF apply_updatesP at h
    by_cases hemp : (inputConstraints p ri).isEmpty
    · rw [if_pos hemp] at h
      simp only [Option.some.injEq, Prod.mk.injEq] at h
      obtain ⟨hq, _⟩ := h
      have hnil : inputConstraints p ri = [] := List.isEmpty_iff.mp hemp
      refine ⟨?_, ?_, hnoregress⟩
      · intro pv hpv
        constructor
        · intro w hw
          rw [← hq, hc32, cellAt_resetPass_row_ge ri _ p ri pv.1 (Nat.le_refl ri)]
          exact hw
        · intro hnk
          have hmem2 := mem_inputConstraints_of p ri pv.1 pv.2 hpv hnk
          rw [hnil] at hmem2
          exact absurd hmem2 (List.not_mem_nil _)
      · intro pv hpv r1 hr1 hnk
        have hmem2 := mem_inputConstraints_of p ri pv.1 pv.2 hpv hnk
        rw [hnil] at hmem2
        exact absurd hmem2 (List.not_mem_nil _)
    · rw [if_neg hemp] at h
      have hcc3 : (recordPass ri (inputConstraints p ri)
          (resetPass ri (inputConstraints p ri) p)).copy_constraints = [] := by
        rw [cc_recordPass, cc_resetPass]
        exact hcc
      have hall3 : ∀ pc ∈ inputConstraints p ri,
          (recordPass ri (inputConstraints p ri)
            (resetPass ri (inputConstraints p ri) p)).witness_cols
            pc.1.poly_id = true ∧ pc.1.next = false := by
        intro pc hpc
        obtain ⟨pv, hpv, heq, _⟩ := of_mem_inputConstraints p ri pc hpc
        constructor
        · rw [wc_recordPass, wc_resetPass, heq]
          exact howned pv hpv
        · rw [heq]
      have hnodup3 := nodup_keys_inputConstraints p ri hnodup
      have hmain := apply_listP_inputs ctx fuel ri (inputConstraints p ri) _
        false q prog hcc3 hall3 hnodup3 h
      have hfr := frame_apply_listP (propagateFuel ctx fuel)
        (frame_propagateFuel ctx fuel) (inputConstraints p ri) _ ri false q
        prog h
      refine ⟨?_, ?_, hnoregress⟩
      · intro pv hpv
        constructor
        · intro w hw
          have hnk : ∀ pc ∈ inputConstraints p ri, pc.1.poly_id ≠ pv.1 := by
            intro pc hpc he
            obtain ⟨pv2, hpv2, heq, hnk2⟩ := of_mem_inputConstraints p ri pc hpc
            apply hnk2 w
            have he2 : pv2.1 = pv.1 := by rw [heq] at he; exact he
            rw [he2]
            exact hw
          rw [hmain.1 ri pv.1 (Or.inr hnk), hc32,
            cellAt_resetPass_row_ge ri _ p ri pv.1 (Nat.le_refl ri)]
          exact hw
        · intro hnk
          exact hmain.2 pv.1 pv.2 (mem_inputConstraints_of p ri pv.1 pv.2 hpv hnk)
      · intro pv hpv r1 hr1 hnk
        have hmem2 := mem_inputConstraints_of p ri pv.1 pv.2 hpv hnk
        constructor
        · intro r h1 h2
          rw [hmain.1 r pv.1 (Or.inl (Nat.ne_of_lt h2)), hc32]
          exact cellAt_resetPass_reset ri (inputConstraints p ri) p pv.1 pv.2
            r1 hmem2 hnodup3 hr1 r h1 h2 (Nat.lt_trans h2 hri)
        · rw [hfr.psi, psi_recordPass, if_pos ?_]
          exact List.mem_map.mpr ⟨_, hmem2, rfl⟩
  · rw [if_neg hri] at h
    exact absurd h (by simp)

/-- Witness: the forced-input invariant at a concrete one-input processor
whose input column is unknown at row 0 and gets forced to 7. -/
theorem set_inputs_if_unset_spec_witness :
    (∀ pv ∈ procW2.inputs,
      (∀ w, procW2.cellAt 0 pv.1 = CellValue.Known w →
        qW2.cellAt 0 pv.1 = CellValue.Known w) ∧
      ((∀ w, procW2.cellAt 0 pv.1 ≠ CellValue.Known w) →
        qW2.cellAt 0 pv.1 = CellValue.Known pv.2)) ∧
    (∀ pv ∈ procW2.inputs, ∀ r1,
      procW2.previously_set_inputs pv.1 = some r1 →
      (∀ w, procW2.cellAt 0 pv.1 ≠ CellValue.Known w) →
      (∀ r, r1 ≤ r → r < 0 → qW2.cellAt r pv.1 = CellValue.Unknown) ∧
      qW2.previously_set_inputs pv.1 = some 0) ∧
    (∀ (fuel2 : Nat) (p2 : Processor Int Unit) (ri2 : Nat)
      (updates : EvalValue Int) (q2 : Processor Int Unit) (prog2 : Bool),
      apply_updatesF ctx0 fuel2 p2 ri2 updates = some (q2, prog2) →
      ∀ r c, q2.cellAt r c = CellValue.Unknown →
        p2.cellAt r c = CellValue.Unknown) :=
  set_inputs_if_unset_spec ctx0 1 procW2 qW2 0 true (by decide) (by decide)
    rfl rfl

end PowdrProcessor
